import Mathlib

/-!
Verification development for a play-money LMSR prediction-market exchange.

The embedding mirrors `exchange.py`.  Modelling conventions:

* Points, reserves and contract counts are exact reals (the spec declares
  them real-valued); the Python floats' `isfinite` guards can never fire on
  `ℝ`, so those branches disappear from the real-valued trade model.  The
  stable log-sum-exp kernel, whose claim is specifically about non-finite
  values, is additionally embedded over an extended-value type `FVal`
  covering finite reals and the two infinities (NaN payloads cannot reach
  the kernel from the engine call sites, where both arguments are quotients
  of finite values by `b`).
* Every engine operation runs in one database transaction and any raised
  error rolls the transaction back, so an operation is a pure function
  `State → Except TradeError (State × Result)`: the error case commits
  nothing.
* A trade touches exactly one market bundle (market + AMM + clearing house
  rows locked together), so the state carries the single market the claims
  quantify over.  `Market.amm_points` is a write-only mirror of
  `AMM.points` and is omitted.  User and position rows are association
  lists keyed by username (usernames are unique; positions are unique per
  (market, user)).
* Ledger rows are append-only and never read back by the engine; the
  claims do not mention them, so the ledger writer is omitted.
-/

namespace PredMarket

/-- The two sides of a binary market, `side ∈ {"yes", "no"}` in the source. -/
inductive Side where
  | yes
  | no
deriving DecidableEq

/-- Quantity resolution mode of `_max_int_quantity_for_budget`. -/
inductive Mode where
  | buy
  | sell
deriving DecidableEq

/-- The distinct `ValueError` conditions raised by `exchange.py`. -/
inductive TradeError where
  | invalidQuantity       -- "quantity must be > 0"
  | budgetInvalid         -- "budget must be > 0"
  | budgetInsufficient    -- "budget insufficient for 1 contract"
  | userNotFound          -- "user not found"
  | marketSettled         -- "Market is settled"
  | noPosition            -- "no position for this market"
  | insufficientHoldings  -- "not enough YES/NO contracts to sell"
  | insufficientFunds     -- "not enough points for order"
  | ammInsolvent          -- "AMM does not have enough points to pay this sell"
  | collateralShortfall   -- "AMM lack points for required collateral"
  | consistencyViolation  -- the 1e-9 post-mutation collateral checks
  | alreadySettled        -- "Market already settled"
  | pricingOverflow       -- "pricing overflow"
deriving DecidableEq

/-- The dictionary returned by `trade_buy` / `trade_sell`. -/
structure TradeResult where
  newBalance : ℝ
  newPrice : ℝ
  quantity : ℝ
  orderCost : ℝ

/-- The rows a trade touches: all users, the positions of the (single)
market under consideration, its AMM row, its clearing-house row and the
market row's `b` / `resolved` / `outcome` columns. -/
structure ExchangeState where
  users : List (String × ℝ)
  positions : List (String × ℝ × ℝ)
  ammPoints : ℝ
  ammQYes : ℝ
  ammQNo : ℝ
  chPoints : ℝ
  b : ℝ
  resolved : Bool
  outcome : Option Side

/-- First-match association-list lookup (a `SELECT … WHERE key = k` hit). -/
def alookup {β : Type} : List (String × β) → String → Option β
  | [], _ => none
  | (k, v) :: rest, u => if k = u then some v else alookup rest u

/-- Overwrite the value stored at a key (an `UPDATE` of the located row). -/
def aset {β : Type} : List (String × β) → String → β → List (String × β)
  | [], _, _ => []
  | (k, w) :: rest, u, v => if k = u then (k, v) :: rest else (k, w) :: aset rest u v

/-- The keys of an association list. -/
def akeys {β : Type} (l : List (String × β)) : List String := l.map Prod.fst

noncomputable section

open Real Classical

/-- Pricing kernel: `_stable_logsumexp` on exact reals.  The source's
`isfinite` guard cannot fire on `ℝ`; the non-finite behaviour is modelled
separately by `stableLogsumexpF`. -/
def stableLogsumexp (a b_ : ℝ) : ℝ :=
  let m := max a b_
  m + Real.log (Real.exp (a - m) + Real.exp (b_ - m))

/-- Pricing kernel: `lmsr_cost(b, q_yes, q_no, dq, side)`. -/
def lmsrCost (b q_yes q_no dq : ℝ) (side : Side) : ℝ :=
  let c_old := b * stableLogsumexp (q_yes / b) (q_no / b)
  let c_new :=
    match side with
    | .yes => b * stableLogsumexp ((q_yes + dq) / b) (q_no / b)
    | .no => b * stableLogsumexp (q_yes / b) ((q_no + dq) / b)
  c_new - c_old

/-- Pricing kernel: `lmsr_yes_price(b, q_yes, q_no)`. -/
def lmsrYesPrice (b q_yes q_no : ℝ) : ℝ :=
  let a := q_yes / b
  let b_ := q_no / b
  let m := max a b_
  Real.exp (a - m) / (Real.exp (a - m) + Real.exp (b_ - m))

/-- The `cost_for_qty` closure of `_max_int_quantity_for_budget`: buy cost,
or sell payout `-lmsr_cost(b, q_yes, q_no, -qty, side)`. -/
def costForQty (b q_yes q_no : ℝ) (side : Side) (mode : Mode) (qty : ℝ) : ℝ :=
  match mode with
  | .buy => lmsrCost b q_yes q_no qty side
  | .sell => -(lmsrCost b q_yes q_no (-qty) side)

/-- The doubling loop of `_max_int_quantity_for_budget`: expand `high`
until the cost exceeds the budget or the `1_000_000_000` cap is passed,
keeping `low` one step behind.  The `high = 0` branch is unreachable from
the entry point (the loop starts at `high = 1` and doubling preserves
positivity); it is only there to make the recursion well founded. -/
def expandBounds (c : ℕ → ℝ) (budget : ℝ) (low high : ℕ) : ℕ × ℕ :=
  if budget < c high then (low, high)
  else if 1000000000 < 2 * high then (high, 2 * high)
  else if high = 0 then (low, high)
  else expandBounds c budget high (2 * high)
termination_by 1000000000 - high
decreasing_by omega

/-- The integer binary search of `_max_int_quantity_for_budget`:
`mid = (low + high + 1) // 2`, shrink to `[low, mid-1]` when `mid` is
unaffordable, else to `[mid, high]`. -/
def binSearch (c : ℕ → ℝ) (budget : ℝ) (low high : ℕ) : ℕ :=
  if low < high then
    let mid := (low + high + 1) / 2
    if budget < c mid then binSearch c budget low (mid - 1)
    else binSearch c budget mid high
  else low
termination_by high - low
decreasing_by all_goals omega

/-- `_max_int_quantity_for_budget(b, q_yes, q_no, side, budget, mode)`. -/
def maxIntQuantityForBudget (b q_yes q_no : ℝ) (side : Side) (budget : ℝ) (mode : Mode) :
    Except TradeError ℕ :=
  if budget ≤ 0 then .error .budgetInvalid
  else
    let c : ℕ → ℝ := fun n => costForQty b q_yes q_no side mode (n : ℝ)
    let lh := expandBounds c budget 0 1
    if lh.1 = 0 then .error .budgetInsufficient
    else .ok (binSearch c budget lh.1 lh.2)

/-- `get_or_create_user(session, username)`: return the stored row, or
insert one with the default starting balance of 1000 points.  Yields the
updated table and the user's balance. -/
def ensureUser (users : List (String × ℝ)) (u : String) : List (String × ℝ) × ℝ :=
  match alookup users u with
  | some p => (users, p)
  | none => (users ++ [(u, 1000)], 1000)

/-- `get_or_create_position_for_update`: return the stored position or
insert `(qYes, qNo) = (0, 0)`. -/
def ensurePosition (positions : List (String × ℝ × ℝ)) (u : String) :
    List (String × ℝ × ℝ) × (ℝ × ℝ) :=
  match alookup positions u with
  | some p => (positions, p)
  | none => (positions ++ [(u, (0, 0))], (0, 0))

/-- The guard `budget_points is not None and budget_points > 0`. -/
def budgetPosValue : Option ℝ → Prop
  | none => False
  | some bp => 0 < bp

/-- Quantity resolution in `trade_buy`: a positive budget overrides the
caller-supplied quantity via the budget inversion in buy mode. -/
def resolveBuyQty (b q_yes q_no : ℝ) (side : Side) (budget : Option ℝ) (quantity : ℝ) :
    Except TradeError ℝ :=
  match budget with
  | some bp =>
      if 0 < bp then (maxIntQuantityForBudget b q_yes q_no side bp .buy).map (fun n => (n : ℝ))
      else .ok quantity
  | none => .ok quantity

/-- Select the holdings of a side from a position, as `trade_sell` does for
its `available` variable. -/
def sideSel (side : Side) (p : ℝ × ℝ) : ℝ :=
  match side with
  | .yes => p.1
  | .no => p.2

/-- Quantity resolution in `trade_sell`: a positive budget resolves the
quantity via the inversion in sell mode and clamps it to
`min(qty, floor(available))` where `available` is the held quantity of the
traded side. -/
def resolveSellQty (b q_yes q_no : ℝ) (side : Side) (budget : Option ℝ) (quantity : ℝ)
    (pos : ℝ × ℝ) : Except TradeError ℝ :=
  match budget with
  | some bp =>
      if 0 < bp then
        (maxIntQuantityForBudget b q_yes q_no side bp .sell).map
          (fun n => min (n : ℝ) ((⌊sideSel side pos⌋ : ℤ) : ℝ))
      else .ok quantity
  | none => .ok quantity

/-- `trade_buy`.  Errors roll the transaction back, so they return no
state.  The caller-injected visibility predicate is `None` at the engine
call sites the claims quantify over and is omitted. -/
def tradeBuy (s : ExchangeState) (username : String) (quantity : ℝ) (side : Side)
    (budgetPoints : Option ℝ) : Except TradeError (ExchangeState × TradeResult) :=
  if quantity ≤ 0 ∧ ¬ budgetPosValue budgetPoints then .error .invalidQuantity
  else
    let users1 := (ensureUser s.users username).1
    let userPts := (ensureUser s.users username).2
    if s.resolved then .error .marketSettled
    else
      let positions1 := (ensurePosition s.positions username).1
      let pos := (ensurePosition s.positions username).2
      let qYesTotal := -s.ammQYes
      let qNoTotal := -s.ammQNo
      (resolveBuyQty s.b qYesTotal qNoTotal side budgetPoints quantity).bind fun qty =>
        let cost := lmsrCost s.b qYesTotal qNoTotal qty side
        if userPts < cost then .error .insufficientFunds
        else
          let userPts2 := userPts - cost
          let ammPoints1 := s.ammPoints + cost
          let pos2 :=
            match side with
            | .yes => (pos.1 + qty, pos.2)
            | .no => (pos.1, pos.2 + qty)
          let ammQYes2 :=
            match side with
            | .yes => s.ammQYes - qty
            | .no => s.ammQYes
          let ammQNo2 :=
            match side with
            | .yes => s.ammQNo
            | .no => s.ammQNo - qty
          let required := max (max 0 (-ammQYes2)) (max 0 (-ammQNo2))
          let delta := required - s.chPoints
          (if 0 < delta then
            if ammPoints1 < delta then .error .collateralShortfall
            else .ok (ammPoints1 - delta, s.chPoints + delta)
          else if delta < -(1 / 1000000000 : ℝ) then .error .consistencyViolation
          else (.ok (ammPoints1, s.chPoints) : Except TradeError (ℝ × ℝ))).bind fun amch =>
            let yesPrice2 := lmsrYesPrice s.b (-ammQYes2) (-ammQNo2)
            .ok
              ({ users := aset users1 username userPts2
                 positions := aset positions1 username pos2
                 ammPoints := amch.1
                 ammQYes := ammQYes2
                 ammQNo := ammQNo2
                 chPoints := amch.2
                 b := s.b
                 resolved := s.resolved
                 outcome := s.outcome },
               { newBalance := userPts2
                 newPrice := match side with | .yes => yesPrice2 | .no => 1 - yesPrice2
                 quantity := qty
                 orderCost := cost })

/-- `trade_sell`.  Unknown users are an error (no auto-creation); a
positive budget resolves the quantity in sell mode and clamps it to the
floor of the held contracts of the traded side. -/
def tradeSell (s : ExchangeState) (username : String) (quantity : ℝ) (side : Side)
    (budgetPoints : Option ℝ) : Except TradeError (ExchangeState × TradeResult) :=
  if quantity ≤ 0 ∧ ¬ budgetPosValue budgetPoints then .error .invalidQuantity
  else
    match alookup s.users username with
    | none => .error .userNotFound
    | some userPts =>
      if s.resolved then .error .marketSettled
      else
        match alookup s.positions username with
        | none => .error .noPosition
        | some pos =>
          let qYesTotal := -s.ammQYes
          let qNoTotal := -s.ammQNo
          (resolveSellQty s.b qYesTotal qNoTotal side budgetPoints quantity pos).bind fun qty =>
            if side = Side.yes ∧ pos.1 < qty then .error TradeError.insufficientHoldings
            else if side = Side.no ∧ pos.2 < qty then .error TradeError.insufficientHoldings
            else if qty ≤ 0 then .error .invalidQuantity
            else
              let payout := -(lmsrCost s.b qYesTotal qNoTotal (-qty) side)
              if s.ammPoints < payout then .error .ammInsolvent
              else
                let userPts2 := userPts + payout
                let ammPoints1 := s.ammPoints - payout
                let pos2 :=
                  match side with
                  | .yes => (pos.1 - qty, pos.2)
                  | .no => (pos.1, pos.2 - qty)
                let ammQYes2 :=
                  match side with
                  | .yes => s.ammQYes + qty
                  | .no => s.ammQYes
                let ammQNo2 :=
                  match side with
                  | .yes => s.ammQNo
                  | .no => s.ammQNo + qty
                let required := max (max 0 (-ammQYes2)) (max 0 (-ammQNo2))
                let delta := s.chPoints - required
                ((if 0 < delta then .ok (ammPoints1 + delta, s.chPoints - delta)
                  else if delta < -(1 / 1000000000 : ℝ) then .error .consistencyViolation
                  else .ok (ammPoints1, s.chPoints) : Except TradeError (ℝ × ℝ))).bind fun amch =>
                  let yesPrice2 := lmsrYesPrice s.b (-ammQYes2) (-ammQNo2)
                  .ok
                    ({ users := aset s.users username userPts2
                       positions := aset s.positions username pos2
                       ammPoints := amch.1
                       ammQYes := ammQYes2
                       ammQNo := ammQNo2
                       chPoints := amch.2
                       b := s.b
                       resolved := s.resolved
                       outcome := s.outcome },
                     { newBalance := userPts2
                       newPrice := match side with | .yes => yesPrice2 | .no => 1 - yesPrice2
                       quantity := qty
                       orderCost := payout })

/-- The payout loop of `Market.settlement`: for each position (in table
order) credit the winning side's contracts to the owner, skipping missing
users and non-positive payouts, exactly as the source does. -/
def creditWinners (positions : List (String × ℝ × ℝ)) (users : List (String × ℝ))
    (outcome : Side) : List (String × ℝ) :=
  match positions with
  | [] => users
  | (u, q) :: rest =>
      let payout := sideSel outcome q
      let users2 :=
        match alookup users u with
        | none => users
        | some pts => if 0 < payout then aset users u (pts + payout) else users
      creditWinners rest users2 outcome

/-- `Market.settlement(outcome)`: refuse if already resolved, else mark
resolved, record the outcome and pay the winners.  AMM and clearing-house
rows are untouched. -/
def settlement (s : ExchangeState) (outcome : Side) : Except TradeError ExchangeState :=
  if s.resolved then .error .alreadySettled
  else
    .ok
      { s with
        resolved := true
        outcome := some outcome
        users := creditWinners s.positions s.users outcome }

/-- A freshly provisioned market bundle (`Market.__init__`): AMM reserve
`r0` (default 10000), zero inventory, zero collateral, not resolved. -/
def mkInit (b r0 : ℝ) (users : List (String × ℝ)) : ExchangeState :=
  { users := users
    positions := []
    ammPoints := r0
    ammQYes := 0
    ammQNo := 0
    chPoints := 0
    b := b
    resolved := false
    outcome := none }

/-- Sum of the points column of a user table. -/
def sumPts (users : List (String × ℝ)) : ℝ := (users.map (fun e => e.2)).sum

/-- The conserved quantity of the spec: user balances + AMM reserve +
clearing-house collateral. -/
def totalPoints (s : ExchangeState) : ℝ := sumPts s.users + s.ammPoints + s.chPoints

/-- A real that is an integer (no fractional contracts). -/
def IsInt (x : ℝ) : Prop := ∃ z : ℤ, x = (z : ℝ)

/-- All contract counters of the state are integers. -/
def IntegralInventory (s : ExchangeState) : Prop :=
  (∀ e ∈ s.positions, IsInt e.2.1 ∧ IsInt e.2.2) ∧ IsInt s.ammQYes ∧ IsInt s.ammQNo

/-- States reachable from a freshly provisioned market by committed trades. -/
inductive Reachable : ExchangeState → Prop where
  | init : ∀ (b r0 : ℝ) (users : List (String × ℝ)), Reachable (mkInit b r0 users)
  | buy : ∀ s u q side bud s2 r, Reachable s →
      tradeBuy s u q side bud = Except.ok (s2, r) → Reachable s2
  | sell : ∀ s u q side bud s2 r, Reachable s →
      tradeSell s u q side bud = Except.ok (s2, r) → Reachable s2

/-- The committed state of scenario S1/S4: user `A` (auto-created with
1000 points) buys `q` YES contracts on a fresh default market. -/
def buyFreshState (q : ℝ) : ExchangeState :=
  { users := [("A", 1000 - lmsrCost 20 0 0 q Side.yes)]
    positions := [("A", (q, 0))]
    ammPoints := 10000 + lmsrCost 20 0 0 q Side.yes - q
    ammQYes := -q
    ammQNo := 0
    chPoints := q
    b := 20
    resolved := false
    outcome := none }

/-- The trade snapshot returned by the scenario S1/S4 buy. -/
def buyFreshResult (q : ℝ) : TradeResult :=
  { newBalance := 1000 - lmsrCost 20 0 0 q Side.yes
    newPrice := lmsrYesPrice 20 q 0
    quantity := q
    orderCost := lmsrCost 20 0 0 q Side.yes }

/-- The committed state after `A` sells the `q` YES contracts back:
everything returns to the initial configuration. -/
def sellBackState : ExchangeState :=
  { users := [("A", 1000)]
    positions := [("A", (0, 0))]
    ammPoints := 10000
    ammQYes := 0
    ammQNo := 0
    chPoints := 0
    b := 20
    resolved := false
    outcome := none }

/-- The trade snapshot returned by the scenario S4 sell-back. -/
def sellBackResult (q : ℝ) : TradeResult :=
  { newBalance := 1000
    newPrice := lmsrYesPrice 20 0 0
    quantity := q
    orderCost := lmsrCost 20 0 0 q Side.yes }

/-- Scenario S5 fixture: two YES holders with 5 and 3 contracts. -/
def settleDemoState : ExchangeState :=
  { users := [("A", 7), ("B", 100)]
    positions := [("A", (5, 3)), ("B", (0, 2))]
    ammPoints := 10013
    ammQYes := -5
    ammQNo := -5
    chPoints := 5
    b := 20
    resolved := false
    outcome := none }

/-- A resolved market fixture. -/
def settledDemoState : ExchangeState :=
  { users := [("A", 1000)]
    positions := [("A", (5, 0))]
    ammPoints := 10000
    ammQYes := -5
    ammQNo := 0
    chPoints := 5
    b := 20
    resolved := true
    outcome := some Side.yes }

/-- A fixture where `A` holds half a YES contract, so the floor of the
held quantity is zero. -/
def clampDemoState : ExchangeState :=
  { users := [("A", 1000)]
    positions := [("A", (1 / 2, 0))]
    ammPoints := 10000
    ammQYes := 0
    ammQNo := 0
    chPoints := 0
    b := 20
    resolved := false
    outcome := none }

/-- Extended float values: finite reals and the two infinities.  NaN is
not representable; the kernel's arguments at engine call sites are
quotients of finite values by `b` and cannot be NaN. -/
inductive FVal where
  | fin (x : ℝ)
  | inf
  | ninf

/-- Python `math.isfinite`. -/
def FVal.isFinite : FVal → Bool
  | .fin _ => true
  | _ => false

/-- Python `max(a, b)` on extended floats: `b` if `a < b` else `a`. -/
def fmax : FVal → FVal → FVal
  | .fin x, .fin y => if x < y then .fin y else .fin x
  | .fin _, .inf => .inf
  | .fin x, .ninf => .fin x
  | .inf, _ => .inf
  | .ninf, b_ => b_

/-- `exp(x - m)` for an extended operand and a finite subtrahend `m`.
When `m = fmax a b` is finite neither argument can be `+∞`, so the `.inf`
case is unreachable (its value is irrelevant). -/
def expShift : FVal → ℝ → ℝ
  | .fin x, m => Real.exp (x - m)
  | .ninf, _ => 0
  | .inf, _ => 0

/-- `_stable_logsumexp` on extended floats, faithful to the source: when
`m = max(a, b)` is non-finite the function RETURNS `float("inf")` (it does
not raise); otherwise it computes `m + log(exp(a-m) + exp(b-m))`. -/
def stableLogsumexpF (a b_ : FVal) : FVal :=
  match fmax a b_ with
  | .fin m => .fin (m + Real.log (expShift a m + expShift b_ m))
  | _ => .inf

/-- Modelled from the spec: the behaviour the spec prescribes for the
stable log-sum-exp kernel — fail with `PricingOverflow` whenever
`m = max(a, b)` is non-finite.  Stated only to be compared with the
source's `stableLogsumexpF`, which returns `inf` instead of failing. -/
def stableLogsumexpSpec (a b_ : FVal) : Except TradeError FVal :=
  match fmax a b_ with
  | .fin m => .ok (.fin (m + Real.log (expShift a m + expShift b_ m)))
  | _ => .error .pricingOverflow

end

/-! Association-list bookkeeping lemmas. -/

theorem alookup_cons {β : Type} (k u : String) (v : β) (rest : List (String × β)) :
    alookup ((k, v) :: rest) u = if k = u then some v else alookup rest u := rfl

theorem aset_cons {β : Type} (k u : String) (w v : β) (rest : List (String × β)) :
    aset ((k, w) :: rest) u v = if k = u then (k, v) :: rest else (k, w) :: aset rest u v := rfl

theorem alookup_aset_self {β : Type} (l : List (String × β)) (u : String) (v p : β) :
    alookup l u = some p → alookup (aset l u v) u = some v := by
  induction l with
  | nil => intro h; simp [alookup] at h
  | cons e rest ih =>
    intro h
    obtain ⟨k, w⟩ := e
    by_cases hk : k = u
    · rw [aset_cons, if_pos hk, alookup_cons, if_pos hk]
    · rw [alookup_cons, if_neg hk] at h
      rw [aset_cons, if_neg hk, alookup_cons, if_neg hk]
      exact ih h

theorem alookup_aset_ne {β : Type} (l : List (String × β)) (u : String) (v : β) (w : String) :
    w ≠ u → alookup (aset l u v) w = alookup l w := by
  induction l with
  | nil => intro _; simp [aset]
  | cons e rest ih =>
    intro hw
    obtain ⟨k, x⟩ := e
    by_cases hk : k = u
    · have hkw : ¬ k = w := fun hh => hw (hh ▸ hk)
      rw [aset_cons, if_pos hk, alookup_cons, if_neg hkw, alookup_cons, if_neg hkw]
    · rw [aset_cons, if_neg hk, alookup_cons, alookup_cons]
      by_cases hkw : k = w
      · rw [if_pos hkw, if_pos hkw]
      · rw [if_neg hkw, if_neg hkw]
        exact ih hw

theorem mem_aset {β : Type} (l : List (String × β)) (u : String) (v : β) (e : String × β) :
    e ∈ aset l u v → e ∈ l ∨ e = (u, v) := by
  induction l with
  | nil => intro h; simp [aset] at h
  | cons hd rest ih =>
    intro h
    obtain ⟨k, w⟩ := hd
    by_cases hk : k = u
    · rw [aset_cons, if_pos hk] at h
      rcases List.mem_cons.1 h with h2 | h2
      · exact Or.inr (by rw [h2, hk])
      · exact Or.inl (List.mem_cons_of_mem _ h2)
    · rw [aset_cons, if_neg hk] at h
      rcases List.mem_cons.1 h with h2 | h2
      · exact Or.inl (by rw [h2]; exact List.mem_cons_self _ _)
      · rcases ih h2 with h3 | h3
        · exact Or.inl (List.mem_cons_of_mem _ h3)
        · exact Or.inr h3

theorem alookup_mem {β : Type} (l : List (String × β)) (u : String) (p : β) :
    alookup l u = some p → (u, p) ∈ l := by
  induction l with
  | nil => intro h; simp [alookup] at h
  | cons e rest ih =>
    intro h
    obtain ⟨k, w⟩ := e
    by_cases hk : k = u
    · rw [alookup_cons, if_pos hk] at h
      obtain rfl : w = p := Option.some.inj h
      rw [← hk]
      exact List.mem_cons_self _ _
    · rw [alookup_cons, if_neg hk] at h
      exact List.mem_cons_of_mem _ (ih h)

theorem alookup_append_of_none {β : Type} (l l2 : List (String × β)) (u : String) :
    alookup l u = none → alookup (l ++ l2) u = alookup l2 u := by
  induction l with
  | nil => intro _; simp
  | cons e rest ih =>
    intro h
    obtain ⟨k, w⟩ := e
    by_cases hk : k = u
    · rw [alookup_cons, if_pos hk] at h
      exact absurd h (by simp)
    · rw [alookup_cons, if_neg hk] at h
      rw [List.cons_append, alookup_cons, if_neg hk]
      exact ih h

theorem mem_akeys_of_mem {β : Type} {l : List (String × β)} {e : String × β} (h : e ∈ l) :
    e.1 ∈ akeys l := List.mem_map.2 ⟨e, h, rfl⟩

theorem sumPts_cons (k : String) (w : ℝ) (rest : List (String × ℝ)) :
    sumPts ((k, w) :: rest) = w + sumPts rest := by
  simp [sumPts]

theorem sumPts_append (l l2 : List (String × ℝ)) :
    sumPts (l ++ l2) = sumPts l + sumPts l2 := by
  simp [sumPts]

theorem sumPts_aset (l : List (String × ℝ)) (u : String) (v p : ℝ) :
    alookup l u = some p → sumPts (aset l u v) = sumPts l - p + v := by
  induction l with
  | nil => intro h; simp [alookup] at h
  | cons e rest ih =>
    intro h
    obtain ⟨k, w⟩ := e
    by_cases hk : k = u
    · rw [alookup_cons, if_pos hk] at h
      obtain rfl : w = p := Option.some.inj h
      rw [aset_cons, if_pos hk, sumPts_cons, sumPts_cons]
      ring
    · rw [alookup_cons, if_neg hk] at h
      rw [aset_cons, if_neg hk, sumPts_cons, sumPts_cons, ih h]
      ring

theorem ensureUser_lookup (l : List (String × ℝ)) (u : String) :
    alookup (ensureUser l u).1 u = some (ensureUser l u).2 := by
  unfold ensureUser
  cases h : alookup l u with
  | some p => simp [h]
  | none =>
    simp only [h]
    rw [alookup_append_of_none _ _ _ h]
    simp [alookup]

theorem sumPts_ensureUser (l : List (String × ℝ)) (u : String) :
    sumPts (ensureUser l u).1 = sumPts l + (if (alookup l u).isSome then 0 else 1000) := by
  unfold ensureUser
  cases h : alookup l u with
  | some p => simp [h]
  | none => simp [h, sumPts_append, sumPts_cons, sumPts]

theorem ensurePosition_mem (l : List (String × ℝ × ℝ)) (u : String) (e : String × ℝ × ℝ) :
    e ∈ (ensurePosition l u).1 → e ∈ l ∨ e = (u, (0, 0)) := by
  unfold ensurePosition
  cases h : alookup l u with
  | some p => intro hm; exact Or.inl (by simpa using hm)
  | none =>
    intro hm
    simp only [List.mem_append, List.mem_singleton] at hm
    exact hm

theorem ensurePosition_val (l : List (String × ℝ × ℝ)) (u : String) :
    (ensurePosition l u).2 = (0, 0) ∨ (u, (ensurePosition l u).2) ∈ l := by
  unfold ensurePosition
  cases h : alookup l u with
  | some p => exact Or.inr (by simpa using alookup_mem _ _ _ h)
  | none => exact Or.inl rfl

theorem ensurePosition_lookup (l : List (String × ℝ × ℝ)) (u : String) :
    alookup (ensurePosition l u).1 u = some (ensurePosition l u).2 := by
  unfold ensurePosition
  cases h : alookup l u with
  | some p => simp [h]
  | none =>
    simp only [h]
    rw [alookup_append_of_none _ _ _ h]
    simp [alookup]

/-! Analytic lemmas about the pricing kernel. -/

theorem stableLogsumexp_eq (a c : ℝ) :
    stableLogsumexp a c = Real.log (Real.exp a + Real.exp c) := by
  show max a c + Real.log (Real.exp (a - max a c) + Real.exp (c - max a c))
      = Real.log (Real.exp a + Real.exp c)
  have hm : Real.exp (a - max a c) + Real.exp (c - max a c)
      = (Real.exp a + Real.exp c) / Real.exp (max a c) := by
    rw [Real.exp_sub, Real.exp_sub, div_add_div_same]
  rw [hm, Real.log_div (by positivity) (Real.exp_ne_zero _), Real.log_exp]
  ring

theorem le_stableLogsumexp_left (a c : ℝ) : a ≤ stableLogsumexp a c := by
  rw [stableLogsumexp_eq, Real.le_log_iff_exp_le (by positivity)]
  linarith [Real.exp_pos c]

theorem le_stableLogsumexp_right (a c : ℝ) : c ≤ stableLogsumexp a c := by
  rw [stableLogsumexp_eq, Real.le_log_iff_exp_le (by positivity)]
  linarith [Real.exp_pos a]

theorem stableLogsumexp_mono_left (a a2 c : ℝ) (h : a ≤ a2) :
    stableLogsumexp a c ≤ stableLogsumexp a2 c := by
  rw [stableLogsumexp_eq, stableLogsumexp_eq]
  have h2 := Real.exp_le_exp.2 h
  exact Real.log_le_log (by positivity) (by linarith)

theorem stableLogsumexp_comm (a c : ℝ) : stableLogsumexp a c = stableLogsumexp c a := by
  rw [stableLogsumexp_eq, stableLogsumexp_eq, add_comm]

theorem stableLogsumexp_mono_right (a c c2 : ℝ) (h : c ≤ c2) :
    stableLogsumexp a c ≤ stableLogsumexp a c2 := by
  rw [stableLogsumexp_comm a c, stableLogsumexp_comm a c2]
  exact stableLogsumexp_mono_left _ _ _ h

theorem stableLogsumexp_add_le (a c t : ℝ) (ht : 0 ≤ t) :
    stableLogsumexp (a + t) c ≤ stableLogsumexp a c + t := by
  rw [stableLogsumexp_eq, stableLogsumexp_eq]
  have h1 : Real.exp (a + t) + Real.exp c ≤ Real.exp t * (Real.exp a + Real.exp c) := by
    rw [Real.exp_add]
    have h2 : (1 : ℝ) ≤ Real.exp t := Real.one_le_exp ht
    nlinarith [Real.exp_pos c]
  have h3 := Real.log_le_log (by positivity) h1
  rw [Real.log_mul (Real.exp_ne_zero t) (by positivity), Real.log_exp] at h3
  linarith

theorem lmsrCost_nonneg (b q_yes q_no dq : ℝ) (side : Side) (hb : 0 < b) (hq : 0 ≤ dq) :
    0 ≤ lmsrCost b q_yes q_no dq side := by
  cases side <;> simp only [lmsrCost] <;> rw [sub_nonneg]
  · exact mul_le_mul_of_nonneg_left
      (stableLogsumexp_mono_left _ _ _ ((div_le_div_iff_of_pos_right hb).2 (by linarith))) hb.le
  · exact mul_le_mul_of_nonneg_left
      (stableLogsumexp_mono_right _ _ _ ((div_le_div_iff_of_pos_right hb).2 (by linarith))) hb.le

theorem lmsrCost_le (b q_yes q_no dq : ℝ) (side : Side) (hb : 0 < b) (hq : 0 ≤ dq) :
    lmsrCost b q_yes q_no dq side ≤ dq := by
  have hdiv : 0 ≤ dq / b := div_nonneg hq hb.le
  have hcancel : b * (dq / b) = dq := mul_div_cancel₀ dq hb.ne'
  cases side <;> simp only [lmsrCost] <;> rw [sub_le_iff_le_add]
  · have h := stableLogsumexp_add_le (q_yes / b) (q_no / b) (dq / b) hdiv
    rw [div_add_div_same] at h
    calc b * stableLogsumexp ((q_yes + dq) / b) (q_no / b)
        ≤ b * (stableLogsumexp (q_yes / b) (q_no / b) + dq / b) :=
          mul_le_mul_of_nonneg_left h hb.le
      _ = dq + b * stableLogsumexp (q_yes / b) (q_no / b) := by rw [mul_add, hcancel]; ring
  · have h := stableLogsumexp_add_le (q_no / b) (q_yes / b) (dq / b) hdiv
    rw [div_add_div_same, stableLogsumexp_comm, stableLogsumexp_comm (q_no / b)] at h
    calc b * stableLogsumexp (q_yes / b) ((q_no + dq) / b)
        ≤ b * (stableLogsumexp (q_yes / b) (q_no / b) + dq / b) :=
          mul_le_mul_of_nonneg_left h hb.le
      _ = dq + b * stableLogsumexp (q_yes / b) (q_no / b) := by rw [mul_add, hcancel]; ring

/-- Selling `dq` immediately after buying `dq` of the same side yields a
payout identical to the buy cost: LMSR is path independent. -/
theorem roundtripPayout (b q_yes q_no dq : ℝ) (side : Side) :
    -(lmsrCost b
        (match side with | .yes => q_yes + dq | .no => q_yes)
        (match side with | .yes => q_no | .no => q_no + dq) (-dq) side)
      = lmsrCost b q_yes q_no dq side := by
  cases side <;> simp only [lmsrCost]
  · have h : q_yes + dq + -dq = q_yes := by ring
    rw [h]; ring
  · have h : q_no + dq + -dq = q_no := by ring
    rw [h]; ring

/-- Sell payouts are bounded by the current cost potential minus the
untraded side's inventory term. -/
theorem sellPayout_le (b q_yes q_no q : ℝ) (side : Side) (hb : 0 < b) :
    costForQty b q_yes q_no side .sell q
      ≤ b * stableLogsumexp (q_yes / b) (q_no / b)
        - (match side with | .yes => q_no | .no => q_yes) := by
  cases side <;> simp only [costForQty, lmsrCost]
  · have h1 : q_no / b ≤ stableLogsumexp ((q_yes + -q) / b) (q_no / b) :=
      le_stableLogsumexp_right _ _
    have h2 : b * (q_no / b) ≤ b * stableLogsumexp ((q_yes + -q) / b) (q_no / b) :=
      mul_le_mul_of_nonneg_left h1 hb.le
    rw [mul_div_cancel₀ q_no hb.ne'] at h2
    linarith
  · have h1 : q_yes / b ≤ stableLogsumexp (q_yes / b) ((q_no + -q) / b) :=
      le_stableLogsumexp_left _ _
    have h2 : b * (q_yes / b) ≤ b * stableLogsumexp (q_yes / b) ((q_no + -q) / b) :=
      mul_le_mul_of_nonneg_left h1 hb.le
    rw [mul_div_cancel₀ q_yes hb.ne'] at h2
    linarith

/-! Lemmas about the budget-inversion search. -/

theorem binSearch_eq_stop (c : ℕ → ℝ) (budget : ℝ) (low high : ℕ) (h : ¬ low < high) :
    binSearch c budget low high = low := by
  rw [binSearch, if_neg h]

theorem binSearch_eq_go (c : ℕ → ℝ) (budget : ℝ) (low high : ℕ) (h : low < high) :
    binSearch c budget low high =
      if budget < c ((low + high + 1) / 2) then binSearch c budget low ((low + high + 1) / 2 - 1)
      else binSearch c budget ((low + high + 1) / 2) high := by
  rw [binSearch, if_pos h]

/-- Invariant analysis of the integer binary search: starting from an
affordable `low`, it lands on an affordable index and the next index is
unaffordable unless the search is pinned at the initial `high`. -/
theorem binSearch_spec (c : ℕ → ℝ) (budget : ℝ) :
    ∀ (fuel low high : ℕ), high - low ≤ fuel → low ≤ high → c low ≤ budget →
      low ≤ binSearch c budget low high ∧ binSearch c budget low high ≤ high ∧
      c (binSearch c budget low high) ≤ budget ∧
      (binSearch c budget low high = high ∨ budget < c (binSearch c budget low high + 1)) := by
  intro fuel
  induction fuel with
  | zero =>
    intro low high hf hlh hcl
    obtain rfl : high = low := by omega
    rw [binSearch_eq_stop c budget high high (lt_irrefl high)]
    exact ⟨le_refl high, le_refl high, hcl, Or.inl rfl⟩
  | succ n ih =>
    intro low high hf hlh hcl
    by_cases hlt : low < high
    · rw [binSearch_eq_go c budget low high hlt]
      have hmid1 : low < (low + high + 1) / 2 := by omega
      have hmid2 : (low + high + 1) / 2 ≤ high := by omega
      by_cases hc : budget < c ((low + high + 1) / 2)
      · rw [if_pos hc]
        obtain ⟨h1, h2, h3, h4⟩ :=
          ih low ((low + high + 1) / 2 - 1) (by omega) (by omega) hcl
        refine ⟨h1, by omega, h3, ?_⟩
        rcases h4 with h4 | h4
        · refine Or.inr ?_
          rw [h4]
          have hm : (low + high + 1) / 2 - 1 + 1 = (low + high + 1) / 2 := by omega
          rw [hm]
          exact hc
        · exact Or.inr h4
      · rw [if_neg hc]
        obtain ⟨h1, h2, h3, h4⟩ :=
          ih ((low + high + 1) / 2) high (by omega) hmid2 (not_lt.1 hc)
        exact ⟨by omega, h2, h3, h4⟩
    · rw [binSearch_eq_stop c budget low high hlt]
      obtain rfl : high = low := by omega
      exact ⟨le_refl high, le_refl high, hcl, Or.inl rfl⟩

theorem expandBounds_eq_break (c : ℕ → ℝ) (budget : ℝ) (low high : ℕ)
    (hc : budget < c high) : expandBounds c budget low high = (low, high) := by
  rw [expandBounds, if_pos hc]

theorem expandBounds_eq_cap (c : ℕ → ℝ) (budget : ℝ) (low high : ℕ)
    (hc : ¬ budget < c high) (hcap : 1000000000 < 2 * high) :
    expandBounds c budget low high = (high, 2 * high) := by
  rw [expandBounds, if_neg hc, if_pos hcap]

theorem expandBounds_eq_step (c : ℕ → ℝ) (budget : ℝ) (low high : ℕ)
    (hc : ¬ budget < c high) (hcap : ¬ 1000000000 < 2 * high) (h0 : ¬ high = 0) :
    expandBounds c budget low high = expandBounds c budget high (2 * high) := by
  rw [expandBounds, if_neg hc, if_neg hcap, if_neg h0]

/-- Invariant analysis of the doubling loop along its reachable call chain
`high = 2 ^ m`: it stops either because `high` became unaffordable (with
`low` still affordable or untouched), or at the cap bracket
`(2 ^ 29, 2 ^ 30)` with `2 ^ 29` affordable. -/
theorem expandBounds_pow (c : ℕ → ℝ) (budget : ℝ) :
    ∀ (d m low : ℕ), m + d = 29 → (low = 0 ∨ c low ≤ budget) → low < 2 ^ m →
      low ≤ (expandBounds c budget low (2 ^ m)).1 ∧
      (expandBounds c budget low (2 ^ m)).2 ≤ 2 ^ 30 ∧
      ((budget < c (expandBounds c budget low (2 ^ m)).2 ∧
        ((expandBounds c budget low (2 ^ m)).1 = 0 ∨
          c (expandBounds c budget low (2 ^ m)).1 ≤ budget) ∧
        (expandBounds c budget low (2 ^ m)).1 < (expandBounds c budget low (2 ^ m)).2) ∨
       (expandBounds c budget low (2 ^ m) = (2 ^ 29, 2 ^ 30) ∧ c (2 ^ 29) ≤ budget)) := by
  intro d
  induction d with
  | zero =>
    intro m low hm hl hlt
    obtain rfl : m = 29 := by omega
    by_cases hc : budget < c (2 ^ 29)
    · rw [expandBounds_eq_break c budget low _ hc]
      exact ⟨le_refl low, by norm_num, Or.inl ⟨hc, hl, hlt⟩⟩
    · rw [expandBounds_eq_cap c budget low _ hc (by norm_num)]
      refine ⟨le_of_lt hlt, by norm_num, Or.inr ⟨?_, not_lt.1 hc⟩⟩
      norm_num
  | succ n ih =>
    intro m low hm hl hlt
    by_cases hc : budget < c (2 ^ m)
    · rw [expandBounds_eq_break c budget low _ hc]
      exact ⟨le_refl low, Nat.pow_le_pow_right (by norm_num) (by omega), Or.inl ⟨hc, hl, hlt⟩⟩
    · have hm28 : m ≤ 28 := by omega
      have hcap : ¬ 1000000000 < 2 * 2 ^ m := by
        have h1 : (2 : ℕ) ^ m ≤ 2 ^ 28 := Nat.pow_le_pow_right (by norm_num) hm28
        have h2 : (2 : ℕ) ^ 28 = 268435456 := by norm_num
        omega
      have hpos : 0 < (2 : ℕ) ^ m := Nat.pos_pow_of_pos m (by norm_num)
      have h0 : ¬ (2 : ℕ) ^ m = 0 := hpos.ne'
      rw [expandBounds_eq_step c budget low _ hc hcap h0]
      have h2m : 2 * 2 ^ m = 2 ^ (m + 1) := by rw [pow_succ]; ring
      have hlt2 : (2 : ℕ) ^ m < 2 ^ (m + 1) := by
        have := h2m
        omega
      rw [h2m]
      obtain ⟨h1, h1b, h2⟩ := ih (m + 1) (2 ^ m) (by omega) (Or.inr (not_lt.1 hc)) hlt2
      exact ⟨le_trans (le_of_lt hlt) h1, h1b, h2⟩

/-- The doubling loop as entered by `_max_int_quantity_for_budget`. -/
theorem expandBounds_entry (c : ℕ → ℝ) (budget : ℝ) :
    (budget < c 1 ∧ expandBounds c budget 0 1 = (0, 1)) ∨
    (¬ budget < c 1 ∧ 1 ≤ (expandBounds c budget 0 1).1 ∧
      (expandBounds c budget 0 1).1 ≤ (expandBounds c budget 0 1).2 ∧
      (expandBounds c budget 0 1).2 ≤ 2 ^ 30 ∧
      c (expandBounds c budget 0 1).1 ≤ budget ∧
      ((expandBounds c budget 0 1).2 = 2 ^ 30 ∨
        budget < c (expandBounds c budget 0 1).2)) := by
  by_cases hc : budget < c 1
  · exact Or.inl ⟨hc, expandBounds_eq_break c budget 0 1 hc⟩
  · have hstep : expandBounds c budget 0 1 = expandBounds c budget 1 2 :=
      expandBounds_eq_step c budget 0 1 hc (by norm_num) (by norm_num)
    have h21 : (2 : ℕ) = 2 ^ 1 := by norm_num
    obtain ⟨h1, h1b, hcase⟩ :=
      expandBounds_pow c budget 28 1 1 (by norm_num) (Or.inr (not_lt.1 hc)) (by norm_num)
    rw [← h21] at h1 h1b hcase
    rw [← hstep] at h1 h1b hcase
    refine Or.inr ⟨hc, h1, ?_, h1b, ?_, ?_⟩
    · rcases hcase with ⟨_, _, hcc⟩ | ⟨heq, _⟩
      · exact le_of_lt hcc
      · rw [heq]; norm_num
    · rcases hcase with ⟨_, hb, _⟩ | ⟨heq, hb⟩
      · rcases hb with hb | hb
        · omega
        · exact hb
      · rw [heq]; exact hb
    · rcases hcase with ⟨ha, _, _⟩ | ⟨heq, _⟩
      · exact Or.inr ha
      · rw [heq]
        exact Or.inl rfl

/-- Success analysis of `_max_int_quantity_for_budget`: the returned count
is at least one, affordable, and tight unless pinned at the `2 ^ 30` cap
bracket. -/
theorem maxInt_ok (b q_yes q_no : ℝ) (side : Side) (budget : ℝ) (mode : Mode) (n : ℕ)
    (h : maxIntQuantityForBudget b q_yes q_no side budget mode = .ok n) :
    1 ≤ n ∧ costForQty b q_yes q_no side mode ((n : ℕ) : ℝ) ≤ budget ∧
    (n = 2 ^ 30 ∨ budget < costForQty b q_yes q_no side mode (((n + 1 : ℕ)) : ℝ)) := by
  by_cases hpos : budget ≤ 0
  · rw [maxIntQuantityForBudget, if_pos hpos] at h
    exact absurd h (by simp)
  · simp only [maxIntQuantityForBudget] at h
    rw [if_neg hpos] at h
    set c : ℕ → ℝ := fun k => costForQty b q_yes q_no side mode (k : ℝ) with hcdef
    rcases expandBounds_entry c budget with ⟨hc1, heq⟩ | ⟨hc1, hge, hlh, hhi, hcl, hcap⟩
    · rw [heq] at h
      simp at h
    · have hne : ¬ (expandBounds c budget 0 1).1 = 0 := by omega
      rw [if_neg hne] at h
      obtain rfl : binSearch c budget (expandBounds c budget 0 1).1
          (expandBounds c budget 0 1).2 = n := Except.ok.inj h
      obtain ⟨h1, h2, h3, h4⟩ :=
        binSearch_spec c budget (expandBounds c budget 0 1).2 _ _ (by omega) hlh hcl
      refine ⟨by omega, h3, ?_⟩
      rcases h4 with h4 | h4
      · rcases hcap with hcap | hcap
        · exact Or.inl (by omega)
        · rw [h4] at h3
          exact absurd hcap (not_lt.2 h3)
      · exact Or.inr (by exact_mod_cast h4)

/-- Failure analysis of `_max_int_quantity_for_budget` for positive
budgets: `BudgetInsufficient` exactly when one contract is unaffordable. -/
theorem maxInt_error_iff (b q_yes q_no : ℝ) (side : Side) (budget : ℝ) (mode : Mode)
    (hpos : 0 < budget) :
    maxIntQuantityForBudget b q_yes q_no side budget mode = .error .budgetInsufficient ↔
      budget < costForQty b q_yes q_no side mode 1 := by
  simp only [maxIntQuantityForBudget]
  rw [if_neg (not_le.2 hpos)]
  rcases expandBounds_entry (fun k => costForQty b q_yes q_no side mode (k : ℝ)) budget with
    ⟨hc1, heq⟩ | ⟨hc1, hge, _, _, _, _⟩
  · simp only [Nat.cast_one] at hc1
    rw [heq]
    simp [hc1]
  · simp only [Nat.cast_one] at hc1
    have hne :
        ¬ (expandBounds (fun k => costForQty b q_yes q_no side mode (k : ℝ)) budget 0 1).1 = 0 :=
      by omega
    rw [if_neg hne]
    simp [hc1]

/-! Inversion lemmas for the trade operations. -/

theorem resolveBuyQty_ok (b q_yes q_no : ℝ) (side : Side) (budget : Option ℝ)
    (quantity qty : ℝ) (h : resolveBuyQty b q_yes q_no side budget quantity = .ok qty) :
    (¬ budgetPosValue budget ∧ qty = quantity) ∨
    (∃ bp n, budget = some bp ∧ 0 < bp ∧
      maxIntQuantityForBudget b q_yes q_no side bp .buy = .ok n ∧ qty = (n : ℝ)) := by
  cases budget with
  | none =>
    exact Or.inl ⟨by simp [budgetPosValue], (Except.ok.inj h).symm⟩
  | some bp =>
    by_cases hbp : 0 < bp
    · refine Or.inr ?_
      rw [resolveBuyQty, if_pos hbp] at h
      cases hmi : maxIntQuantityForBudget b q_yes q_no side bp .buy with
      | error e => rw [hmi] at h; simp [Except.map] at h
      | ok n =>
        rw [hmi] at h
        simp only [Except.map] at h
        exact ⟨bp, n, rfl, hbp, hmi, (Except.ok.inj h).symm⟩
    · rw [resolveBuyQty, if_neg hbp] at h
      exact Or.inl ⟨by simp [budgetPosValue, hbp], (Except.ok.inj h).symm⟩

theorem resolveBuyQty_pos (b q_yes q_no : ℝ) (side : Side) (budget : Option ℝ)
    (quantity qty : ℝ) (hargs : ¬ (quantity ≤ 0 ∧ ¬ budgetPosValue budget))
    (h : resolveBuyQty b q_yes q_no side budget quantity = .ok qty) : 0 < qty := by
  rcases resolveBuyQty_ok b q_yes q_no side budget quantity qty h with
    ⟨hnb, rfl⟩ | ⟨bp, n, rfl, hbp, hmi, rfl⟩
  · by_contra hle
    exact hargs ⟨not_lt.1 (fun hlt => hle hlt), hnb⟩
  · have h1 := (maxInt_ok _ _ _ _ _ _ _ hmi).1
    exact_mod_cast Nat.lt_of_lt_of_le Nat.zero_lt_one h1

/-- Full success analysis of `trade_buy`: what a committed buy did to every
row it touched. -/
theorem tradeBuy_ok (s : ExchangeState) (u : String) (quantity : ℝ) (side : Side)
    (budget : Option ℝ) (s2 : ExchangeState) (r : TradeResult)
    (h : tradeBuy s u quantity side budget = .ok (s2, r)) :
    s.resolved = false ∧
    0 < r.quantity ∧
    resolveBuyQty s.b (-s.ammQYes) (-s.ammQNo) side budget quantity = .ok r.quantity ∧
    r.orderCost = lmsrCost s.b (-s.ammQYes) (-s.ammQNo) r.quantity side ∧
    r.newBalance = (ensureUser s.users u).2 - r.orderCost ∧
    ¬ (ensureUser s.users u).2 < r.orderCost ∧
    s2.users = aset (ensureUser s.users u).1 u ((ensureUser s.users u).2 - r.orderCost) ∧
    s2.positions = aset (ensurePosition s.positions u).1 u
      ((ensurePosition s.positions u).2.1 + (if side = Side.yes then r.quantity else 0),
       (ensurePosition s.positions u).2.2 + (if side = Side.no then r.quantity else 0)) ∧
    s2.ammQYes = s.ammQYes - (if side = Side.yes then r.quantity else 0) ∧
    s2.ammQNo = s.ammQNo - (if side = Side.no then r.quantity else 0) ∧
    s2.ammPoints + s2.chPoints = s.ammPoints + r.orderCost + s.chPoints ∧
    ((0 < max (max 0 (-s2.ammQYes)) (max 0 (-s2.ammQNo)) - s.chPoints ∧
      s2.chPoints = max (max 0 (-s2.ammQYes)) (max 0 (-s2.ammQNo))) ∨
     (-(1 / 1000000000 : ℝ) ≤ max (max 0 (-s2.ammQYes)) (max 0 (-s2.ammQNo)) - s.chPoints ∧
      max (max 0 (-s2.ammQYes)) (max 0 (-s2.ammQNo)) - s.chPoints ≤ 0 ∧
      s2.chPoints = s.chPoints)) ∧
    s2.b = s.b ∧ s2.resolved = s.resolved ∧ s2.outcome = s.outcome := by
  cases side <;>
  · simp only [tradeBuy] at h
    split at h
    · exact absurd h (by simp)
    next hargs =>
    split at h
    next hres => exact absurd h (by simp)
    next hres =>
    rw [Bool.not_eq_true] at hres
    cases hq : resolveBuyQty s.b (-s.ammQYes) (-s.ammQNo) _ budget quantity with
    | error e =>
      rw [hq] at h
      exact absurd h (by simp [Except.bind])
    | ok qty =>
      rw [hq] at h
      simp only [Except.bind] at h
      split at h
      next hfunds => exact absurd h (by simp)
      next hfunds =>
      have hqpos : 0 < qty := resolveBuyQty_pos _ _ _ _ _ _ _ hargs hq
      split at h
      next heq => exact absurd h (by simp)
      next amch heq =>
        obtain ⟨hs, hr⟩ := Prod.mk.inj (Except.ok.inj h)
        subst hs
        subst hr
        split at heq
        next hdelta =>
          split at heq
          next hamm => exact absurd heq (by simp)
          next hamm =>
            obtain rfl : _ = amch := Except.ok.inj heq
            refine ⟨hres, hqpos, rfl, rfl, rfl, hfunds, rfl, by simp, by simp, by simp,
              by dsimp only; ring, ?_, rfl, rfl, rfl⟩
            refine Or.inl ⟨by exact hdelta, ?_⟩
            dsimp only
            ring
        next hdelta =>
          split at heq
          next heps => exact absurd heq (by simp)
          next heps =>
            obtain rfl : _ = amch := Except.ok.inj heq
            refine ⟨hres, hqpos, rfl, rfl, rfl, hfunds, rfl, by simp, by simp, by simp,
              by dsimp only, ?_, rfl, rfl, rfl⟩
            exact Or.inr ⟨by dsimp only; linarith [not_lt.1 heps],
              by dsimp only; linarith [not_lt.1 hdelta], rfl⟩

theorem resolveSellQty_ok (b q_yes q_no : ℝ) (side : Side) (budget : Option ℝ)
    (quantity : ℝ) (pos : ℝ × ℝ) (qty : ℝ)
    (h : resolveSellQty b q_yes q_no side budget quantity pos = .ok qty) :
    (¬ budgetPosValue budget ∧ qty = quantity) ∨
    (∃ bp n, budget = some bp ∧ 0 < bp ∧
      maxIntQuantityForBudget b q_yes q_no side bp .sell = .ok n ∧
      qty = min (n : ℝ) ((⌊sideSel side pos⌋ : ℤ) : ℝ)) := by
  cases budget with
  | none =>
    exact Or.inl ⟨by simp [budgetPosValue], (Except.ok.inj h).symm⟩
  | some bp =>
    by_cases hbp : 0 < bp
    · refine Or.inr ?_
      rw [resolveSellQty, if_pos hbp] at h
      cases hmi : maxIntQuantityForBudget b q_yes q_no side bp .sell with
      | error e => rw [hmi] at h; simp [Except.map] at h
      | ok n =>
        rw [hmi] at h
        simp only [Except.map] at h
        exact ⟨bp, n, rfl, hbp, hmi, (Except.ok.inj h).symm⟩
    · rw [resolveSellQty, if_neg hbp] at h
      exact Or.inl ⟨by simp [budgetPosValue, hbp], (Except.ok.inj h).symm⟩

/-- Full success analysis of `trade_sell`: what a committed sell did to
every row it touched. -/
theorem tradeSell_ok (s : ExchangeState) (u : String) (quantity : ℝ) (side : Side)
    (budget : Option ℝ) (s2 : ExchangeState) (r : TradeResult)
    (h : tradeSell s u quantity side budget = .ok (s2, r)) :
    ∃ userPts pos,
      alookup s.users u = some userPts ∧
      alookup s.positions u = some pos ∧
      s.resolved = false ∧
      0 < r.quantity ∧
      resolveSellQty s.b (-s.ammQYes) (-s.ammQNo) side budget quantity pos = .ok r.quantity ∧
      r.quantity ≤ sideSel side pos ∧
      r.orderCost = -(lmsrCost s.b (-s.ammQYes) (-s.ammQNo) (-r.quantity) side) ∧
      r.newBalance = userPts + r.orderCost ∧
      ¬ s.ammPoints < r.orderCost ∧
      s2.users = aset s.users u (userPts + r.orderCost) ∧
      s2.positions = aset s.positions u
        (pos.1 - (if side = Side.yes then r.quantity else 0),
         pos.2 - (if side = Side.no then r.quantity else 0)) ∧
      s2.ammQYes = s.ammQYes + (if side = Side.yes then r.quantity else 0) ∧
      s2.ammQNo = s.ammQNo + (if side = Side.no then r.quantity else 0) ∧
      s2.ammPoints + s2.chPoints = s.ammPoints - r.orderCost + s.chPoints ∧
      ((0 < s.chPoints - max (max 0 (-s2.ammQYes)) (max 0 (-s2.ammQNo)) ∧
        s2.chPoints = max (max 0 (-s2.ammQYes)) (max 0 (-s2.ammQNo))) ∨
       (-(1 / 1000000000 : ℝ) ≤ s.chPoints - max (max 0 (-s2.ammQYes)) (max 0 (-s2.ammQNo)) ∧
        s.chPoints - max (max 0 (-s2.ammQYes)) (max 0 (-s2.ammQNo)) ≤ 0 ∧
        s2.chPoints = s.chPoints)) ∧
      s2.b = s.b ∧ s2.resolved = s.resolved ∧ s2.outcome = s.outcome := by
  cases side <;>
  · simp only [tradeSell] at h
    split at h
    · exact absurd h (by simp)
    next hargs =>
    split at h
    next hnou => exact absurd h (by simp)
    next userPts hu =>
    split at h
    next hres => exact absurd h (by simp)
    next hres =>
    rw [Bool.not_eq_true] at hres
    split at h
    next hnop => exact absurd h (by simp)
    next pos hpos =>
    refine ⟨userPts, pos, hu, hpos, hres, ?_⟩
    cases hq : resolveSellQty s.b (-s.ammQYes) (-s.ammQNo) _ budget quantity pos with
    | error e =>
      rw [hq] at h
      exact absurd h (by simp [Except.bind])
    | ok qty =>
      rw [hq] at h
      simp only [Except.bind] at h
      split at h
      next hhold => exact absurd h (by simp)
      next hhold =>
      split at h
      next hhold2 => exact absurd h (by simp)
      next hhold2 =>
      split at h
      next hqle => exact absurd h (by simp)
      next hqle =>
      split at h
      next hamm => exact absurd h (by simp)
      next hamm =>
      split at h
      next heq => exact absurd h (by simp)
      next amch heq =>
        obtain ⟨hs, hr⟩ := Prod.mk.inj (Except.ok.inj h)
        subst hs
        subst hr
        have hqpos : 0 < qty := not_le.1 hqle
        split at heq
        next hdelta =>
          obtain rfl : _ = amch := Except.ok.inj heq
          refine ⟨hqpos, rfl, ?_, rfl, rfl, hamm, rfl, by simp, by simp, by simp,
            by dsimp only; ring, ?_, rfl, rfl, rfl⟩
          · first
            | exact not_lt.1 fun hlt => hhold ⟨trivial, hlt⟩
            | exact not_lt.1 fun hlt => hhold2 ⟨trivial, hlt⟩
          refine Or.inl ⟨by exact hdelta, ?_⟩
          dsimp only
          ring
        next hdelta =>
          split at heq
          next heps => exact absurd heq (by simp)
          next heps =>
            obtain rfl : _ = amch := Except.ok.inj heq
            refine ⟨hqpos, rfl, ?_, rfl, rfl, hamm, rfl, by simp, by simp, by simp,
              by dsimp only, ?_, rfl, rfl, rfl⟩
            · first
              | exact not_lt.1 fun hlt => hhold ⟨trivial, hlt⟩
              | exact not_lt.1 fun hlt => hhold2 ⟨trivial, hlt⟩
            exact Or.inr ⟨by dsimp only; linarith [not_lt.1 heps],
              by dsimp only; linarith [not_lt.1 hdelta], rfl⟩

/-! Concrete committed runs on the default market (scenarios S1 and S4). -/

theorem buyFresh (q : ℝ) (h1 : 0 < q) (h2 : q ≤ 1000) :
    tradeBuy (mkInit 20 10000 []) "A" q Side.yes none =
      .ok (buyFreshState q, buyFreshResult q) := by
  have hc0 : 0 ≤ lmsrCost 20 0 0 q Side.yes :=
    lmsrCost_nonneg 20 0 0 q Side.yes (by norm_num) h1.le
  have hc1 : lmsrCost 20 0 0 q Side.yes ≤ q :=
    lmsrCost_le 20 0 0 q Side.yes (by norm_num) h1.le
  simp only [tradeBuy, mkInit, ensureUser, ensurePosition, alookup, resolveBuyQty,
    budgetPosValue, Except.bind, neg_zero]
  have hreq : (0 ⊔ -((0 : ℝ) - q) ⊔ (0 ⊔ 0)) = q := by
    have e1 : -((0 : ℝ) - q) = q := by ring
    rw [e1, max_self, max_eq_right h1.le, max_eq_left h1.le]
  rw [hreq, sub_zero]
  rw [if_neg (fun hcon => absurd hcon.1 (not_le.2 h1))]
  rw [if_neg (by simp : ¬ false = true)]
  rw [if_neg (not_lt.2 (le_trans hc1 h2))]
  rw [if_pos h1]
  rw [if_neg (not_lt.2 (by linarith : q ≤ 10000 + lmsrCost 20 0 0 q Side.yes))]
  dsimp only
  norm_num [aset, buyFreshState, buyFreshResult]

theorem sellAfterFresh (q : ℝ) (h1 : 0 < q) (h2 : q ≤ 1000) :
    tradeSell (buyFreshState q) "A" q Side.yes none =
      .ok (sellBackState, sellBackResult q) := by
  have hc0 : 0 ≤ lmsrCost 20 0 0 q Side.yes :=
    lmsrCost_nonneg 20 0 0 q Side.yes (by norm_num) h1.le
  have hc1 : lmsrCost 20 0 0 q Side.yes ≤ q :=
    lmsrCost_le 20 0 0 q Side.yes (by norm_num) h1.le
  have hpay : -(lmsrCost 20 q 0 (-q) Side.yes) = lmsrCost 20 0 0 q Side.yes := by
    have h := roundtripPayout 20 0 0 q Side.yes
    simpa using h
  simp only [tradeSell, buyFreshState, ensureUser, ensurePosition, alookup, resolveSellQty,
    budgetPosValue, Except.bind, neg_zero, neg_neg, if_true]
  have hreq0 : (0 ⊔ -(-q + q) ⊔ (0 ⊔ (0 : ℝ))) = 0 := by norm_num
  rw [hreq0, hpay, sub_zero]
  rw [if_neg (fun hcon => absurd hcon.1 (not_le.2 h1))]
  rw [if_neg (by simp : ¬ false = true)]
  rw [if_neg (fun hcon => lt_irrefl q hcon.2)]
  rw [if_neg (fun hcon => Side.noConfusion hcon.1)]
  rw [if_neg (not_le.2 h1)]
  rw [if_neg (not_lt.2 (by linarith : lmsrCost 20 0 0 q Side.yes ≤
    10000 + lmsrCost 20 0 0 q Side.yes - q))]
  rw [if_pos h1]
  dsimp only
  norm_num [aset, sellBackState, sellBackResult]
  ring

/-- When every probed quantity up to the cap bracket is affordable, the
inversion returns exactly the cap value `2 ^ 30`. -/
theorem maxInt_saturated (b q_yes q_no : ℝ) (side : Side) (budget : ℝ) (mode : Mode)
    (hpos : 0 < budget)
    (hall : ∀ k : ℕ, k ≤ 2 ^ 30 + 1 → costForQty b q_yes q_no side mode (k : ℝ) ≤ budget) :
    maxIntQuantityForBudget b q_yes q_no side budget mode = .ok (2 ^ 30) := by
  simp only [maxIntQuantityForBudget]
  rw [if_neg (not_le.2 hpos)]
  rcases expandBounds_entry (fun k => costForQty b q_yes q_no side mode (k : ℝ)) budget with
    ⟨hc1, _⟩ | ⟨_, hge, hlh, hhi, hcl, hcap⟩
  · exact absurd hc1 (not_lt.2 (hall 1 (by norm_num)))
  · have hne :
        ¬ (expandBounds (fun k => costForQty b q_yes q_no side mode (k : ℝ)) budget 0 1).1 = 0 :=
      by omega
    rw [if_neg hne]
    have h2 :
        (expandBounds (fun k => costForQty b q_yes q_no side mode (k : ℝ)) budget 0 1).2
          = 2 ^ 30 := by
      rcases hcap with h | h
      · exact h
      · exact absurd h (not_lt.2 (hall _ (by omega)))
    obtain ⟨hL, hH, hcR, hor⟩ :=
      binSearch_spec (fun k => costForQty b q_yes q_no side mode (k : ℝ)) budget
        (expandBounds (fun k => costForQty b q_yes q_no side mode (k : ℝ)) budget 0 1).2 _ _
        (by omega) hlh hcl
    have hfin :
        binSearch (fun k => costForQty b q_yes q_no side mode (k : ℝ)) budget
          (expandBounds (fun k => costForQty b q_yes q_no side mode (k : ℝ)) budget 0 1).1
          (expandBounds (fun k => costForQty b q_yes q_no side mode (k : ℝ)) budget 0 1).2
          = (expandBounds (fun k => costForQty b q_yes q_no side mode (k : ℝ)) budget 0 1).2 := by
      rcases hor with h | h
      · exact h
      · exact absurd h (not_lt.2 (hall _ (by omega)))
    rw [hfin, h2]

/-- Shuffling the zero clamps: the collateral requirement computed by the
engine equals the form `max(max(a, b), 0)` used by the spec. -/
theorem max_zero_shuffle (a b_ : ℝ) : max (max 0 a) (max 0 b_) = max (max a b_) 0 := by
  rw [sup_sup_sup_comm, sup_idem, sup_comm (0 : ℝ) (a ⊔ b_)]

/-! Settlement lemmas. -/

theorem settlement_resolved (s : ExchangeState) (o : Side) (h : s.resolved = true) :
    settlement s o = .error .alreadySettled := by
  rw [settlement, if_pos h]

theorem settlement_ok (s : ExchangeState) (o : Side) (s2 : ExchangeState)
    (h : settlement s o = .ok s2) :
    s.resolved = false ∧
    s2 = { s with
            resolved := true
            outcome := some o
            users := creditWinners s.positions s.users o } := by
  rw [settlement] at h
  split at h
  · exact absurd h (by simp)
  next hres =>
    rw [Bool.not_eq_true] at hres
    exact ⟨hres, (Except.ok.inj h).symm⟩

theorem creditWinners_cons (v : String) (qq : ℝ × ℝ) (rest : List (String × ℝ × ℝ))
    (users : List (String × ℝ)) (o : Side) :
    creditWinners ((v, qq) :: rest) users o =
      creditWinners rest
        (match alookup users v with
          | none => users
          | some pts => if 0 < sideSel o qq then aset users v (pts + sideSel o qq) else users)
        o := rfl

theorem creditWinners_lookup_notmem (ps : List (String × ℝ × ℝ)) (o : Side) (u : String)
    (h : u ∉ akeys ps) :
    ∀ users, alookup (creditWinners ps users o) u = alookup users u := by
  induction ps with
  | nil => intro users; rfl
  | cons e rest ih =>
    intro users
    obtain ⟨v, qq⟩ := e
    have hsplit : u ≠ v ∧ u ∉ akeys rest := by
      constructor
      · intro hvu
        exact h (by simp [akeys, hvu])
      · intro hmem
        exact h (by simp [akeys]; right; simpa [akeys] using hmem)
    rw [creditWinners_cons]
    rw [ih hsplit.2]
    cases hl : alookup users v with
    | none => rfl
    | some pts =>
      dsimp only
      by_cases hp : 0 < sideSel o qq
      · rw [if_pos hp]
        exact alookup_aset_ne users v _ u hsplit.1
      · rw [if_neg hp]

theorem creditWinners_lookup_mem (o : Side) (u : String) (qy qn : ℝ)
    (hw : 0 ≤ sideSel o (qy, qn)) :
    ∀ (ps : List (String × ℝ × ℝ)) (users : List (String × ℝ)) (p : ℝ),
      (akeys ps).Nodup → (u, (qy, qn)) ∈ ps → alookup users u = some p →
      alookup (creditWinners ps users o) u = some (p + sideSel o (qy, qn)) := by
  intro ps
  induction ps with
  | nil => intro users p _ hmem; simp at hmem
  | cons e rest ih =>
    intro users p hnd hmem hup
    obtain ⟨v, qq⟩ := e
    have hnd2 : v ∉ akeys rest ∧ (akeys rest).Nodup := by
      simpa [akeys] using hnd
    rw [creditWinners_cons]
    rcases List.mem_cons.1 hmem with hhead | htail
    · obtain ⟨hv, hqq⟩ := Prod.mk.inj hhead
      subst hv
      obtain rfl : qq = (qy, qn) := hqq.symm
      have hnotin : u ∉ akeys rest := hnd2.1
      rw [creditWinners_lookup_notmem rest o u hnotin]
      rw [hup]
      dsimp only
      by_cases hp : 0 < sideSel o (qy, qn)
      · rw [if_pos hp]
        exact alookup_aset_self users u _ p hup
      · rw [if_neg hp]
        have h0 : sideSel o (qy, qn) = 0 := le_antisymm (not_lt.1 hp) hw
        rw [hup, h0, add_zero]
    · have hvu : v ≠ u := by
        intro hvu
        subst hvu
        exact hnd2.1 (mem_akeys_of_mem htail)
      have hlook2 :
          alookup (match alookup users v with
            | none => users
            | some pts => if 0 < sideSel o qq then aset users v (pts + sideSel o qq)
              else users) u = some p := by
        cases hl : alookup users v with
        | none => exact hup
        | some pts =>
          dsimp only
          by_cases hp : 0 < sideSel o qq
          · rw [if_pos hp]
            rw [alookup_aset_ne users v _ u (fun hh => hvu hh.symm)]
            exact hup
          · rw [if_neg hp]
            exact hup
      exact ih _ p hnd2.2 htail hlook2

/-! Integrality helper lemmas. -/

theorem isInt_zero : IsInt 0 := ⟨0, by norm_num⟩

theorem isInt_natCast (n : ℕ) : IsInt ((n : ℕ) : ℝ) := ⟨(n : ℤ), by push_cast; ring⟩

theorem isInt_add {x y : ℝ} (hx : IsInt x) (hy : IsInt y) : IsInt (x + y) := by
  obtain ⟨a, rfl⟩ := hx
  obtain ⟨c, rfl⟩ := hy
  exact ⟨a + c, by push_cast; ring⟩

theorem isInt_sub {x y : ℝ} (hx : IsInt x) (hy : IsInt y) : IsInt (x - y) := by
  obtain ⟨a, rfl⟩ := hx
  obtain ⟨c, rfl⟩ := hy
  exact ⟨a - c, by push_cast; ring⟩

theorem isInt_ite (c : Prop) [Decidable c] {x y : ℝ} (hx : IsInt x) (hy : IsInt y) :
    IsInt (if c then x else y) := by
  split
  · exact hx
  · exact hy

/-! The claims. -/

/-- C1 (amended): committed trades conserve the sum of user balances, the
AMM reserve and the clearing-house collateral, except that a buy by a
previously unknown username additionally mints that user's starting
balance of 1000 points; sells never create users and conserve the total
exactly. -/
theorem C1_conservation :
    (∀ s u q side bud s2 r, tradeBuy s u q side bud = .ok (s2, r) →
      totalPoints s2 = totalPoints s + (if (alookup s.users u).isSome then 0 else 1000)) ∧
    (∀ s u q side bud s2 r, tradeSell s u q side bud = .ok (s2, r) →
      totalPoints s2 = totalPoints s) := by
  constructor
  · intro s u q side bud s2 r h
    obtain ⟨_, _, _, _, _, _, husers, _, _, _, hsum, _, _, _, _⟩ :=
      tradeBuy_ok s u q side bud s2 r h
    have h1 := sumPts_aset (ensureUser s.users u).1 u ((ensureUser s.users u).2 - r.orderCost)
      (ensureUser s.users u).2 (ensureUser_lookup s.users u)
    have h2 := sumPts_ensureUser s.users u
    unfold totalPoints
    rw [husers, h1, h2]
    linarith [hsum]
  · intro s u q side bud s2 r h
    obtain ⟨up, pp, hu, _, _, _, _, _, _, _, _, husers, _, _, _, hsum, _, _, _, _⟩ :=
      tradeSell_ok s u q side bud s2 r h
    have h1 := sumPts_aset s.users u (up + r.orderCost) up hu
    unfold totalPoints
    rw [husers, h1]
    linarith [hsum]

/-- Witness for C1 on the scenario S1/S4 runs: the creating buy mints
exactly 1000, the sell conserves the total. -/
theorem C1_witness :
    totalPoints (buyFreshState 10) = totalPoints (mkInit 20 10000 [])
      + (if (alookup (mkInit 20 10000 []).users "A").isSome then 0 else 1000) ∧
    totalPoints sellBackState = totalPoints (buyFreshState 10) :=
  ⟨C1_conservation.1 _ "A" 10 Side.yes none _ _ (buyFresh 10 (by norm_num) (by norm_num)),
   C1_conservation.2 _ "A" 10 Side.yes none _ _ (sellAfterFresh 10 (by norm_num) (by norm_num))⟩

/-- Counterexample to C1 as stated: a successful buy by a fresh username
changes the total by the minted starting balance, not by zero. -/
theorem C1_counterexample :
    tradeBuy (mkInit 20 10000 []) "A" 10 Side.yes none
      = .ok (buyFreshState 10, buyFreshResult 10) ∧
    totalPoints (buyFreshState 10) ≠ totalPoints (mkInit 20 10000 []) := by
  refine ⟨buyFresh 10 (by norm_num) (by norm_num), ?_⟩
  simp only [totalPoints, sumPts, buyFreshState, mkInit, List.map_cons, List.map_nil,
    List.sum_cons, List.sum_nil]
  intro hcon
  linarith

/-- C2: in every state reachable from a freshly provisioned market by
committed trades, the clearing house holds exactly
`max(-AMM.qYes, -AMM.qNo, 0)` points, and never a negative amount. -/
theorem C2_collateral_sufficiency (s : ExchangeState) (h : Reachable s) :
    s.chPoints = max (max (-s.ammQYes) (-s.ammQNo)) 0 ∧ 0 ≤ s.chPoints := by
  suffices hmain : s.chPoints = max (max (-s.ammQYes) (-s.ammQNo)) 0 by
    exact ⟨hmain, hmain ▸ le_max_right _ _⟩
  induction h with
  | init b r0 users => simp [mkInit]
  | buy s u q side bud s2 r hreach hbuy ih =>
    obtain ⟨_, hqpos, _, _, _, _, _, _, hqy, hqn, _, hch, _, _, _⟩ :=
      tradeBuy_ok s u q side bud s2 r hbuy
    have hold : s.chPoints = max (max 0 (-s.ammQYes)) (max 0 (-s.ammQNo)) := by
      rw [ih, max_zero_shuffle]
    have h1 : -s.ammQYes ≤ -s2.ammQYes := by
      rw [hqy]
      have : (0 : ℝ) ≤ (if side = Side.yes then r.quantity else 0) := by
        split
        · exact hqpos.le
        · exact le_refl 0
      linarith
    have h2 : -s.ammQNo ≤ -s2.ammQNo := by
      rw [hqn]
      have : (0 : ℝ) ≤ (if side = Side.no then r.quantity else 0) := by
        split
        · exact hqpos.le
        · exact le_refl 0
      linarith
    have hmono : max (max 0 (-s.ammQYes)) (max 0 (-s.ammQNo))
        ≤ max (max 0 (-s2.ammQYes)) (max 0 (-s2.ammQNo)) :=
      max_le_max (max_le_max le_rfl h1) (max_le_max le_rfl h2)
    rw [← max_zero_shuffle]
    rcases hch with ⟨_, hcheq⟩ | ⟨_, hle, hcheq⟩
    · exact hcheq
    · rw [hcheq, hold]
      have hge : s.chPoints ≤ max (max 0 (-s2.ammQYes)) (max 0 (-s2.ammQNo)) :=
        hold ▸ hmono
      linarith
  | sell s u q side bud s2 r hreach hsell ih =>
    obtain ⟨up, pp, _, _, _, hqpos, _, _, _, _, _, _, _, hqy, hqn, _, hch, _, _, _⟩ :=
      tradeSell_ok s u q side bud s2 r hsell
    have hold : s.chPoints = max (max 0 (-s.ammQYes)) (max 0 (-s.ammQNo)) := by
      rw [ih, max_zero_shuffle]
    have h1 : -s2.ammQYes ≤ -s.ammQYes := by
      rw [hqy]
      have : (0 : ℝ) ≤ (if side = Side.yes then r.quantity else 0) := by
        split
        · exact hqpos.le
        · exact le_refl 0
      linarith
    have h2 : -s2.ammQNo ≤ -s.ammQNo := by
      rw [hqn]
      have : (0 : ℝ) ≤ (if side = Side.no then r.quantity else 0) := by
        split
        · exact hqpos.le
        · exact le_refl 0
      linarith
    have hmono : max (max 0 (-s2.ammQYes)) (max 0 (-s2.ammQNo))
        ≤ max (max 0 (-s.ammQYes)) (max 0 (-s.ammQNo)) :=
      max_le_max (max_le_max le_rfl h1) (max_le_max le_rfl h2)
    rw [← max_zero_shuffle]
    rcases hch with ⟨_, hcheq⟩ | ⟨_, hle, hcheq⟩
    · exact hcheq
    · rw [hcheq, hold]
      have hge : max (max 0 (-s2.ammQYes)) (max 0 (-s2.ammQNo)) ≤ s.chPoints :=
        hold ▸ hmono
      linarith

/-- Witness for C2 at the freshly provisioned default market. -/
theorem C2_witness :
    (mkInit 20 10000 []).chPoints
      = max (max (-(mkInit 20 10000 []).ammQYes) (-(mkInit 20 10000 []).ammQNo)) 0 ∧
    0 ≤ (mkInit 20 10000 []).chPoints :=
  C2_collateral_sufficiency _ (Reachable.init 20 10000 [])

/-- C3 (amended): for a positive budget the inversion returns a count of
at least one whose cost or payout fits the budget, and the next count
exceeds the budget UNLESS the result is pinned at the `2 ^ 30` doubling
cap bracket; it fails with `BudgetInsufficient` exactly when one contract
is unaffordable. -/
theorem C3_budget_inversion (b q_yes q_no : ℝ) (side : Side) (budget : ℝ) (mode : Mode)
    (hpos : 0 < budget) :
    (∀ n, maxIntQuantityForBudget b q_yes q_no side budget mode = .ok n →
      1 ≤ n ∧ costForQty b q_yes q_no side mode (n : ℝ) ≤ budget ∧
      (n = 2 ^ 30 ∨ budget < costForQty b q_yes q_no side mode ((n : ℝ) + 1))) ∧
    (maxIntQuantityForBudget b q_yes q_no side budget mode = .error .budgetInsufficient ↔
      budget < costForQty b q_yes q_no side mode 1) := by
  constructor
  · intro n h
    obtain ⟨h1, h2, h3⟩ := maxInt_ok b q_yes q_no side budget mode n h
    refine ⟨h1, h2, ?_⟩
    rcases h3 with h3 | h3
    · exact Or.inl h3
    · refine Or.inr ?_
      have hcast : (((n + 1 : ℕ)) : ℝ) = (n : ℝ) + 1 := by push_cast; ring
      rwa [hcast] at h3
  · exact maxInt_error_iff b q_yes q_no side budget mode hpos

/-- Witness for C3 on the default market parameters with budget 5. -/
theorem C3_witness :
    (0 : ℝ) < 5 ∧
    ((∀ n, maxIntQuantityForBudget 20 0 0 Side.yes 5 Mode.buy = .ok n →
      1 ≤ n ∧ costForQty 20 0 0 Side.yes Mode.buy (n : ℝ) ≤ 5 ∧
      (n = 2 ^ 30 ∨ 5 < costForQty 20 0 0 Side.yes Mode.buy ((n : ℝ) + 1))) ∧
    (maxIntQuantityForBudget 20 0 0 Side.yes 5 Mode.buy = .error .budgetInsufficient ↔
      (5 : ℝ) < costForQty 20 0 0 Side.yes Mode.buy 1)) :=
  ⟨by norm_num, C3_budget_inversion 20 0 0 Side.yes 5 Mode.buy (by norm_num)⟩

/-- Counterexample to C3 as stated: with a huge budget the doubling cap
bites, the inversion returns `2 ^ 30`, yet `2 ^ 30 + 1` contracts are
still affordable — the returned count is not the largest affordable one. -/
theorem C3_counterexample :
    maxIntQuantityForBudget 20 0 0 Side.yes (2 ^ 31) Mode.buy = .ok (2 ^ 30) ∧
    costForQty 20 0 0 Side.yes Mode.buy ((2 ^ 30 : ℕ) : ℝ) ≤ 2 ^ 31 ∧
    costForQty 20 0 0 Side.yes Mode.buy (((2 ^ 30 + 1 : ℕ)) : ℝ) ≤ 2 ^ 31 := by
  have hall : ∀ k : ℕ, k ≤ 2 ^ 30 + 1 →
      costForQty 20 0 0 Side.yes Mode.buy (k : ℝ) ≤ 2 ^ 31 := by
    intro k hk
    have h1 : lmsrCost 20 0 0 (k : ℝ) Side.yes ≤ (k : ℝ) :=
      lmsrCost_le 20 0 0 (k : ℝ) Side.yes (by norm_num) (by positivity)
    have h2 : (k : ℝ) ≤ ((2 ^ 30 + 1 : ℕ) : ℝ) := by exact_mod_cast hk
    have h3 : ((2 ^ 30 + 1 : ℕ) : ℝ) ≤ 2 ^ 31 := by push_cast; norm_num
    calc costForQty 20 0 0 Side.yes Mode.buy (k : ℝ)
        = lmsrCost 20 0 0 (k : ℝ) Side.yes := rfl
      _ ≤ (k : ℝ) := h1
      _ ≤ 2 ^ 31 := le_trans h2 h3
  exact ⟨maxInt_saturated 20 0 0 Side.yes (2 ^ 31) Mode.buy (by norm_num) hall,
    hall _ (by norm_num), hall _ le_rfl⟩

/-- C4: settlement credits every position-holding user with exactly their
pre-settlement contract count of the winning side, changes no other
balance, and leaves the AMM and clearing-house rows untouched. -/
theorem C4_settlement_pays (s : ExchangeState) (o : Side) (s2 : ExchangeState)
    (u : String) (q_yes q_no p : ℝ)
    (hnd : (akeys s.positions).Nodup)
    (hmem : (u, (q_yes, q_no)) ∈ s.positions)
    (hu : alookup s.users u = some p)
    (hw : 0 ≤ sideSel o (q_yes, q_no))
    (h : settlement s o = .ok s2) :
    alookup s2.users u = some (p + sideSel o (q_yes, q_no)) ∧
    (∀ v, v ∉ akeys s.positions → alookup s2.users v = alookup s.users v) ∧
    s2.ammPoints = s.ammPoints ∧ s2.chPoints = s.chPoints ∧
    s2.ammQYes = s.ammQYes ∧ s2.ammQNo = s.ammQNo := by
  obtain ⟨hres, rfl⟩ := settlement_ok s o s2 h
  refine ⟨?_, ?_, rfl, rfl, rfl, rfl⟩
  · exact creditWinners_lookup_mem o u q_yes q_no hw s.positions s.users p hnd hmem hu
  · intro v hv
    exact creditWinners_lookup_notmem s.positions o v hv s.users

/-- Witness for C4 on the scenario S5 fixture: holder of 5 YES contracts
is credited exactly 5 at `outcome = yes`. -/
theorem C4_witness :
    (akeys settleDemoState.positions).Nodup ∧
    ("A", ((5 : ℝ), (3 : ℝ))) ∈ settleDemoState.positions ∧
    alookup settleDemoState.users "A" = some 7 ∧
    (0 : ℝ) ≤ sideSel Side.yes (5, 3) ∧
    alookup (creditWinners settleDemoState.positions settleDemoState.users Side.yes) "A"
      = some (7 + sideSel Side.yes (5, 3)) := by
  have hsett : settlement settleDemoState Side.yes =
      .ok { settleDemoState with
              resolved := true
              outcome := some Side.yes
              users := creditWinners settleDemoState.positions settleDemoState.users
                Side.yes } := by
    rw [settlement, if_neg (by simp [settleDemoState])]
  refine ⟨by simp [settleDemoState, akeys], by simp [settleDemoState],
    by simp [settleDemoState, alookup], by norm_num [sideSel], ?_⟩
  exact (C4_settlement_pays settleDemoState Side.yes _ "A" 5 3 7
    (by simp [settleDemoState, akeys]) (by simp [settleDemoState])
    (by simp [settleDemoState, alookup]) (by norm_num [sideSel]) hsett).1

/-- C5: on a resolved market every well-formed buy or sell fails with
`MarketSettled` (errors roll back, so the state is unchanged by
construction); committed trades never change the resolved flag, and
settlement flips it false-to-true exactly once, failing thereafter. -/
theorem C5_settled_frozen :
    (∀ s u q side bud, s.resolved = true → ¬ (q ≤ 0 ∧ ¬ budgetPosValue bud) →
      tradeBuy s u q side bud = .error .marketSettled) ∧
    (∀ s u q side bud, s.resolved = true → ¬ (q ≤ 0 ∧ ¬ budgetPosValue bud) →
      (alookup s.users u).isSome →
      tradeSell s u q side bud = .error .marketSettled) ∧
    (∀ s o, s.resolved = true → settlement s o = .error .alreadySettled) ∧
    (∀ s u q side bud s2 r, tradeBuy s u q side bud = .ok (s2, r) →
      s2.resolved = s.resolved) ∧
    (∀ s u q side bud s2 r, tradeSell s u q side bud = .ok (s2, r) →
      s2.resolved = s.resolved) ∧
    (∀ s o s2, settlement s o = .ok s2 → s.resolved = false ∧ s2.resolved = true) := by
  refine ⟨?_, ?_, ?_, ?_, ?_, ?_⟩
  · intro s u q side bud hres hargs
    simp only [tradeBuy]
    rw [if_neg hargs, if_pos hres]
  · intro s u q side bud hres hargs hsome
    simp only [tradeSell]
    rw [if_neg hargs]
    cases hl : alookup s.users u with
    | none => rw [hl] at hsome; simp at hsome
    | some p =>
      dsimp only
      rw [if_pos hres]
  · intro s o hres
    exact settlement_resolved s o hres
  · intro s u q side bud s2 r h
    obtain ⟨_, _, _, _, _, _, _, _, _, _, _, _, _, hres2, _⟩ :=
      tradeBuy_ok s u q side bud s2 r h
    exact hres2
  · intro s u q side bud s2 r h
    obtain ⟨_, _, _, _, _, _, _, _, _, _, _, _, _, _, _, _, _, _, hres2, _⟩ :=
      tradeSell_ok s u q side bud s2 r h
    exact hres2
  · intro s o s2 h
    obtain ⟨hres, rfl⟩ := settlement_ok s o s2 h
    exact ⟨hres, rfl⟩

/-- Witness for C5 at a concrete resolved market. -/
theorem C5_witness :
    settledDemoState.resolved = true ∧
    tradeBuy settledDemoState "A" 1 Side.yes none = .error .marketSettled ∧
    tradeSell settledDemoState "A" 1 Side.yes none = .error .marketSettled ∧
    settlement settledDemoState Side.no = .error .alreadySettled := by
  refine ⟨rfl, ?_, ?_, ?_⟩
  · exact C5_settled_frozen.1 settledDemoState "A" 1 Side.yes none rfl
      (fun hcon => absurd hcon.1 (by norm_num))
  · exact C5_settled_frozen.2.1 settledDemoState "A" 1 Side.yes none rfl
      (fun hcon => absurd hcon.1 (by norm_num)) (by simp [settledDemoState, alookup])
  · exact C5_settled_frozen.2.2.1 settledDemoState Side.no rfl

/-- C6 (amended): buying `q` contracts and immediately selling the same
`q` on the same side returns the user to EXACTLY the balance they had
after user-creation — LMSR is path independent, so the round-trip spread
is zero, not strictly positive. -/
theorem C6_round_trip (s : ExchangeState) (u : String) (q : ℝ) (side : Side)
    (s1 s2 : ExchangeState) (r1 r2 : TradeResult)
    (h1 : tradeBuy s u q side none = .ok (s1, r1))
    (h2 : tradeSell s1 u q side none = .ok (s2, r2)) :
    alookup s2.users u = some (ensureUser s.users u).2 := by
  obtain ⟨_, _, hq1, hcost1, _, _, husers1, _, hqy1, hqn1, _, _, hb1, _, _⟩ :=
    tradeBuy_ok s u q side none s1 r1 h1
  obtain ⟨up, pp, hu2, _, _, _, hq2, _, hpay2, _, _, husers2, _, _, _, _, _, _, _, _⟩ :=
    tradeSell_ok s1 u q side none s2 r2 h2
  have hr1q : q = r1.quantity := Except.ok.inj hq1
  have hr2q : q = r2.quantity := Except.ok.inj hq2
  have hpay : r2.orderCost = r1.orderCost := by
    rw [hpay2, hcost1, ← hr1q, ← hr2q, hb1]
    rw [← hr1q] at hqy1 hqn1
    cases side
    · rw [hqy1, hqn1]
      rw [if_pos rfl, if_neg (fun hcon => Side.noConfusion hcon), sub_zero]
      have harg : -(s.ammQYes - q) = -s.ammQYes + q := by ring
      rw [harg]
      have h := roundtripPayout s.b (-s.ammQYes) (-s.ammQNo) q Side.yes
      simpa using h
    · rw [hqy1, hqn1]
      rw [if_neg (fun hcon => Side.noConfusion hcon), if_pos rfl, sub_zero]
      have harg : -(s.ammQNo - q) = -s.ammQNo + q := by ring
      rw [harg]
      have h := roundtripPayout s.b (-s.ammQYes) (-s.ammQNo) q Side.no
      simpa using h
  have hup : up = (ensureUser s.users u).2 - r1.orderCost := by
    rw [husers1] at hu2
    rw [alookup_aset_self _ _ _ _ (ensureUser_lookup s.users u)] at hu2
    exact (Option.some.inj hu2).symm
  rw [husers2]
  rw [alookup_aset_self _ _ _ _ hu2]
  congr 1
  rw [hup, hpay]
  ring

/-- Witness for C6 on the scenario S4 run. -/
theorem C6_witness :
    alookup sellBackState.users "A" = some (ensureUser (mkInit 20 10000 []).users "A").2 :=
  C6_round_trip _ "A" 10 Side.yes _ _ _ _ (buyFresh 10 (by norm_num) (by norm_num))
    (sellAfterFresh 10 (by norm_num) (by norm_num))

/-- Counterexample to C6 as stated: the scenario S4 round trip ends with
balance EXACTLY 1000, so the final balance is not strictly below the
starting balance — the spread loss is zero, not strictly positive. -/
theorem C6_counterexample :
    tradeBuy (mkInit 20 10000 []) "A" 10 Side.yes none
      = .ok (buyFreshState 10, buyFreshResult 10) ∧
    tradeSell (buyFreshState 10) "A" 10 Side.yes none
      = .ok (sellBackState, sellBackResult 10) ∧
    alookup sellBackState.users "A" = some 1000 ∧
    ¬ (∃ p : ℝ, alookup sellBackState.users "A" = some p ∧ p < 1000) := by
  refine ⟨buyFresh 10 (by norm_num) (by norm_num),
    sellAfterFresh 10 (by norm_num) (by norm_num), by simp [sellBackState, alookup], ?_⟩
  rintro ⟨p, hp, hlt⟩
  have hp2 : alookup sellBackState.users "A" = some 1000 := by simp [sellBackState, alookup]
  rw [hp2] at hp
  obtain rfl : (1000 : ℝ) = p := Option.some.inj hp
  exact absurd hlt (lt_irrefl 1000)

/-- C7 (amended): budget-driven buys trade a natural number of contracts
and budget-driven sells an integer (the inversion count clamped by an
integer floor); the engine does not itself force a caller-supplied
quantity to be an integer, but whenever the traded quantity is an integer,
integrality of all positions and AMM inventories is preserved. -/
theorem C7_integer_contracts :
    (∀ s u q side bp s2 r, 0 < bp → tradeBuy s u q side (some bp) = .ok (s2, r) →
      ∃ n : ℕ, r.quantity = (n : ℝ)) ∧
    (∀ s u q side bp s2 r, 0 < bp → tradeSell s u q side (some bp) = .ok (s2, r) →
      ∃ z : ℤ, r.quantity = (z : ℝ)) ∧
    (∀ s u q side bud s2 r, IntegralInventory s → IsInt r.quantity →
      (tradeBuy s u q side bud = .ok (s2, r) ∨ tradeSell s u q side bud = .ok (s2, r)) →
      IntegralInventory s2) := by
  refine ⟨?_, ?_, ?_⟩
  · intro s u q side bp s2 r hbp h
    obtain ⟨_, _, hq, _⟩ := tradeBuy_ok s u q side (some bp) s2 r h
    rcases resolveBuyQty_ok _ _ _ _ _ _ _ hq with ⟨hnb, _⟩ | ⟨bp2, n, _, _, _, hqn⟩
    · exact absurd hbp hnb
    · exact ⟨n, hqn⟩
  · intro s u q side bp s2 r hbp h
    obtain ⟨up, pp, _, _, _, _, hq, _⟩ := tradeSell_ok s u q side (some bp) s2 r h
    rcases resolveSellQty_ok _ _ _ _ _ _ _ _ hq with ⟨hnb, _⟩ | ⟨bp2, n, _, _, _, hqn⟩
    · exact absurd hbp hnb
    · refine ⟨min (n : ℤ) ⌊sideSel side pp⌋, ?_⟩
      rw [hqn]
      push_cast
      rfl
  · intro s u q side bud s2 r hint hq hor
    obtain ⟨hposI, hqyI, hqnI⟩ := hint
    rcases hor with h | h
    · obtain ⟨_, _, _, _, _, _, _, hpositions, hqy, hqn, _, _, _, _, _⟩ :=
        tradeBuy_ok s u q side bud s2 r h
      refine ⟨?_, ?_, ?_⟩
      · intro e he
        rw [hpositions] at he
        rcases mem_aset _ _ _ _ he with he2 | he2
        · rcases ensurePosition_mem s.positions u e he2 with he3 | he3
          · exact hposI e he3
          · rw [he3]
            exact ⟨isInt_zero, isInt_zero⟩
        · have hpp : IsInt (ensurePosition s.positions u).2.1 ∧
              IsInt (ensurePosition s.positions u).2.2 := by
            rcases ensurePosition_val s.positions u with hv | hv
            · rw [hv]
              exact ⟨isInt_zero, isInt_zero⟩
            · exact hposI _ hv
          rw [he2]
          exact ⟨isInt_add hpp.1 (isInt_ite _ hq isInt_zero),
            isInt_add hpp.2 (isInt_ite _ hq isInt_zero)⟩
      · rw [hqy]
        exact isInt_sub hqyI (isInt_ite _ hq isInt_zero)
      · rw [hqn]
        exact isInt_sub hqnI (isInt_ite _ hq isInt_zero)
    · obtain ⟨up, pp, _, hppmem, _, _, _, _, _, _, _, _, hpositions, hqy, hqn, _, _, _, _, _⟩ :=
        tradeSell_ok s u q side bud s2 r h
      have hpp : IsInt pp.1 ∧ IsInt pp.2 := hposI (u, pp) (alookup_mem _ _ _ hppmem)
      refine ⟨?_, ?_, ?_⟩
      · intro e he
        rw [hpositions] at he
        rcases mem_aset _ _ _ _ he with he2 | he2
        · exact hposI e he2
        · rw [he2]
          exact ⟨isInt_sub hpp.1 (isInt_ite _ hq isInt_zero),
            isInt_sub hpp.2 (isInt_ite _ hq isInt_zero)⟩
      · rw [hqy]
        exact isInt_add hqyI (isInt_ite _ hq isInt_zero)
      · rw [hqn]
        exact isInt_add hqnI (isInt_ite _ hq isInt_zero)

/-- Witness for C7: integrality is preserved across the concrete
10-contract buy. -/
theorem C7_witness :
    IntegralInventory (mkInit 20 10000 []) ∧ IsInt (buyFreshResult 10).quantity ∧
    IntegralInventory (buyFreshState 10) := by
  have h1 : IntegralInventory (mkInit 20 10000 []) := by
    refine ⟨?_, ⟨0, by norm_num [mkInit]⟩, ⟨0, by norm_num [mkInit]⟩⟩
    intro e he
    simp [mkInit] at he
  have h2 : IsInt (buyFreshResult 10).quantity := ⟨10, by norm_num [buyFreshResult]⟩
  exact ⟨h1, h2, C7_integer_contracts.2.2 _ "A" 10 Side.yes none _ _ h1 h2
    (Or.inl (buyFresh 10 (by norm_num) (by norm_num)))⟩

/-- Counterexample to C7 as stated: the engine accepts the fractional
caller-supplied quantity 5/2 and commits a position of 5/2 contracts. -/
theorem C7_counterexample :
    tradeBuy (mkInit 20 10000 []) "A" (5 / 2) Side.yes none
      = .ok (buyFreshState (5 / 2), buyFreshResult (5 / 2)) ∧
    alookup (buyFreshState (5 / 2)).positions "A" = some (5 / 2, 0) ∧
    (buyFreshResult (5 / 2)).quantity = 5 / 2 ∧
    ¬ IsInt ((5 / 2 : ℝ)) := by
  refine ⟨buyFresh (5 / 2) (by norm_num) (by norm_num),
    by simp [buyFreshState, alookup], rfl, ?_⟩
  rintro ⟨z, hz⟩
  have h2 : (5 : ℝ) = ((2 * z : ℤ) : ℝ) := by push_cast; linarith
  have h3 : (5 : ℤ) = 2 * z := by exact_mod_cast h2
  omega

/-- C8 (amended): when `m = max(a, b)` is non-finite the stable
log-sum-exp kernel RETURNS `inf` rather than failing (the claimed
`PricingOverflow` failure happens only later, at the trade call sites);
on finite inputs it returns `m + log(exp(a-m) + exp(b-m))`. -/
theorem C8_lse_nonfinite :
    (∀ a b_, (fmax a b_).isFinite = false → stableLogsumexpF a b_ = FVal.inf) ∧
    (∀ x y : ℝ, stableLogsumexpF (.fin x) (.fin y)
      = .fin (max x y + Real.log (Real.exp (x - max x y) + Real.exp (y - max x y)))) := by
  constructor
  · intro a b_ hf
    unfold stableLogsumexpF
    cases hm : fmax a b_ with
    | fin m => rw [hm] at hf; simp [FVal.isFinite] at hf
    | inf => rfl
    | ninf => rfl
  · intro x y
    have hm : fmax (FVal.fin x) (FVal.fin y) = .fin (max x y) := by
      show (if x < y then FVal.fin y else FVal.fin x) = FVal.fin (max x y)
      by_cases h : x < y
      · rw [if_pos h, max_eq_right h.le]
      · rw [if_neg h, max_eq_left (not_lt.1 h)]
    unfold stableLogsumexpF
    rw [hm]
    rfl

/-- Witness for C8 at a non-finite input. -/
theorem C8_witness :
    (fmax FVal.inf (FVal.fin 0)).isFinite = false ∧
    stableLogsumexpF FVal.inf (FVal.fin 0) = FVal.inf :=
  ⟨rfl, C8_lse_nonfinite.1 FVal.inf (FVal.fin 0) rfl⟩

/-- Counterexample to C8 as stated: at `a = +∞` the source kernel returns
the value `inf` where the spec-mandated behaviour is a `PricingOverflow`
failure. -/
theorem C8_counterexample :
    stableLogsumexpF FVal.inf (FVal.fin 0) = FVal.inf ∧
    stableLogsumexpSpec FVal.inf (FVal.fin 0) = .error .pricingOverflow :=
  ⟨rfl, rfl⟩

/-- C9 (amended): a buy by an unknown username creates the user with the
default 1000-point balance (their post-trade balance is 1000 minus the
order cost); a sell by an unknown username does NOT create the user and
fails with `UserNotFound`. -/
theorem C9_user_creation :
    (∀ s u q side bud s2 r, tradeBuy s u q side bud = .ok (s2, r) →
      alookup s.users u = none → alookup s2.users u = some (1000 - r.orderCost)) ∧
    (∀ s u q side bud, ¬ (q ≤ 0 ∧ ¬ budgetPosValue bud) → alookup s.users u = none →
      tradeSell s u q side bud = .error .userNotFound) := by
  constructor
  · intro s u q side bud s2 r h hn
    obtain ⟨_, _, _, _, _, _, husers, _⟩ := tradeBuy_ok s u q side bud s2 r h
    have h1000 : (ensureUser s.users u).2 = 1000 := by
      unfold ensureUser
      rw [hn]
    rw [husers, alookup_aset_self _ _ _ _ (ensureUser_lookup s.users u), h1000]
  · intro s u q side bud hargs hn
    simp only [tradeSell]
    rw [if_neg hargs, hn]

/-- Witness for C9: the scenario S1 buy creates `A` with 1000 points; a
sell by the unknown `Z` fails with `UserNotFound`. -/
theorem C9_witness :
    alookup (mkInit 20 10000 []).users "A" = none ∧
    alookup (buyFreshState 10).users "A" = some (1000 - (buyFreshResult 10).orderCost) ∧
    tradeSell (mkInit 20 10000 []) "Z" 1 Side.yes none = .error .userNotFound := by
  refine ⟨rfl, ?_, ?_⟩
  · exact C9_user_creation.1 _ "A" 10 Side.yes none _ _
      (buyFresh 10 (by norm_num) (by norm_num)) rfl
  · exact C9_user_creation.2 _ "Z" 1 Side.yes none
      (fun hcon => absurd hcon.1 (by norm_num)) rfl

/-- Counterexample to C9 as stated: a sell by an unknown username fails
with `UserNotFound` instead of creating the user and proceeding. -/
theorem C9_counterexample :
    tradeSell (mkInit 20 10000 []) "Z" 1 Side.yes none = .error .userNotFound := by
  simp only [tradeSell, mkInit]
  rw [if_neg (fun hcon => absurd hcon.1 (by norm_num : ¬ (1 : ℝ) ≤ 0))]
  rfl

/-- C10: a budget-driven sell whose held quantity on the requested side
has floor zero clamps the resolved quantity to zero, passes the holdings
checks, and fails with the generic invalid-quantity error (not
`InsufficientHoldings`); the error rolls the transaction back. -/
theorem C10_zero_floor_sell (s : ExchangeState) (u : String) (q : ℝ) (side : Side)
    (bp pts : ℝ) (pp : ℝ × ℝ) (n : ℕ)
    (hbp : 0 < bp)
    (hu : alookup s.users u = some pts)
    (hres : s.resolved = false)
    (hpos : alookup s.positions u = some pp)
    (hfloor : ⌊sideSel side pp⌋ = 0)
    (hinv : maxIntQuantityForBudget s.b (-s.ammQYes) (-s.ammQNo) side bp .sell = .ok n) :
    tradeSell s u q side (some bp) = .error .invalidQuantity := by
  have hn1 : 1 ≤ n := (maxInt_ok _ _ _ _ _ _ _ hinv).1
  have hheld0 : 0 ≤ sideSel side pp := by
    have h := (Int.floor_eq_iff (α := ℝ) (z := 0)).1 hfloor
    exact_mod_cast h.1
  have hqty : min (n : ℝ) ((⌊sideSel side pp⌋ : ℤ) : ℝ) = 0 := by
    rw [hfloor]
    norm_num
  simp only [tradeSell]
  rw [if_neg (fun hcon => hcon.2 hbp)]
  rw [hu]
  dsimp only
  rw [if_neg (by simp [hres])]
  rw [hpos]
  dsimp only
  have hresolve : resolveSellQty s.b (-s.ammQYes) (-s.ammQNo) side (some bp) q pp
      = .ok 0 := by
    rw [resolveSellQty, if_pos hbp, hinv]
    exact congrArg Except.ok hqty
  rw [hresolve]
  simp only [Except.bind]
  rw [if_neg (fun hcon => absurd hcon.2 (not_lt.2 (by
    rw [hcon.1] at hheld0
    exact hheld0)))]
  rw [if_neg (fun hcon => absurd hcon.2 (not_lt.2 (by
    rw [hcon.1] at hheld0
    exact hheld0)))]
  rw [if_pos (le_refl (0 : ℝ))]

/-- Witness for C10 at a holder of half a YES contract with budget 100. -/
theorem C10_witness :
    (0 : ℝ) < 100 ∧
    alookup clampDemoState.users "A" = some 1000 ∧
    clampDemoState.resolved = false ∧
    alookup clampDemoState.positions "A" = some (1 / 2, 0) ∧
    ⌊sideSel Side.yes ((1 / 2 : ℝ), (0 : ℝ))⌋ = 0 ∧
    tradeSell clampDemoState "A" 1 Side.yes (some 100) = .error .invalidQuantity := by
  have hall : ∀ k : ℕ, k ≤ 2 ^ 30 + 1 →
      costForQty 20 (-(0 : ℝ)) (-(0 : ℝ)) Side.yes Mode.sell (k : ℝ) ≤ 100 := by
    intro k hk
    have h1 := sellPayout_le 20 (-(0 : ℝ)) (-(0 : ℝ)) (k : ℝ) Side.yes (by norm_num)
    have h2 : stableLogsumexp (-(0 : ℝ) / 20) (-(0 : ℝ) / 20) = Real.log 2 := by
      rw [stableLogsumexp_eq]
      norm_num [Real.exp_zero]
    rw [h2] at h1
    have h3 : Real.log 2 ≤ 1 := by
      have h := Real.log_le_sub_one_of_pos (by norm_num : (0 : ℝ) < 2)
      linarith
    simp only [sideSel] at h1
    linarith
  have hsat : maxIntQuantityForBudget 20 (-(0 : ℝ)) (-(0 : ℝ)) Side.yes 100 Mode.sell
      = .ok (2 ^ 30) :=
    maxInt_saturated 20 (-(0 : ℝ)) (-(0 : ℝ)) Side.yes 100 Mode.sell (by norm_num) hall
  have hfl : ⌊sideSel Side.yes ((1 / 2 : ℝ), (0 : ℝ))⌋ = 0 := by
    rw [Int.floor_eq_iff (α := ℝ) (z := 0)]
    norm_num [sideSel]
  refine ⟨by norm_num, by simp [clampDemoState, alookup], rfl,
    by simp [clampDemoState, alookup], hfl, ?_⟩
  exact C10_zero_floor_sell clampDemoState "A" 1 Side.yes 100 1000 (1 / 2, 0) (2 ^ 30)
    (by norm_num) (by simp [clampDemoState, alookup]) rfl
    (by simp [clampDemoState, alookup]) hfl hsat

end PredMarket
